import Mathlib

/-!
Verification of the file-mcp server's edit engine, path guard, read tracker
and disambiguation session store.

The TypeScript sources are shallowly embedded: JS strings become `List Char`
(code points; all inputs of interest are ASCII so UTF-16 units and code
points coincide), the filesystem, the read tracker and the session map
become explicit state, `async` functions throwing `Error` become functions
into `Except Err _`.  `path.resolve` is environment/OS dependent; the model
works with already-resolved absolute paths, so `resolve` is the identity and
`process.cwd()` is an explicit `cwd` argument.  `$`-substitution patterns of
JS `String.prototype.replace` are not modelled (replacements are literal).
-/

abbrev Str := List Char

deriving instance DecidableEq for Except

/-- Coerce a Lean string literal to the `List Char` model of a JS string. -/
def str (s : String) : Str := s.data

/-- Association-list lookup, modelling `Map.get` / `Set.has` keyed by path. -/
def alookup {β : Type} : List (Str × β) → Str → Option β
  | [], _ => none
  | (k, v) :: rest, p => if k = p then some v else alookup rest p

/-- Association-list update, modelling `Map.set` (insert or overwrite). -/
def aupdate {β : Type} : List (Str × β) → Str → β → List (Str × β)
  | [], k, v => [(k, v)]
  | (k', v') :: rest, k, v =>
    if k' = k then (k, v) :: rest else (k', v') :: aupdate rest k v

/-- Association-list removal, modelling `Map.delete`. -/
def aremove {β : Type} : List (Str × β) → Str → List (Str × β)
  | [], _ => []
  | (k', v') :: rest, k => if k' = k then aremove rest k else (k', v') :: aremove rest k

/-- One step of `String.prototype.indexOf(pat, p)`: does `pat` occur at
position `p`?  (`occursAt s pat p` ↔ `pat` is a prefix of `s.drop p`.) -/
def occursAt (s pat : Str) (p : Nat) : Bool := pat.isPrefixOf (s.drop p)

/-- Fueled scan for the least occurrence position `≥ p`; fuel bounds the
number of candidate positions inspected. -/
def idxAux (s pat : Str) : Nat → Nat → Option Nat
  | _, 0 => none
  | p, fuel + 1 => if occursAt s pat p then some p else idxAux s pat (p + 1) fuel

/-- JS `s.indexOf(pat, start)` (with `none` for `-1`): least position `≥ start`
at which `pat` occurs in `s`. -/
def indexOfFrom (s pat : Str) (start : Nat) : Option Nat :=
  idxAux s pat start (s.length + 1 - start)

/-- JS `s.indexOf(pat)`. -/
def indexOfStr (s pat : Str) : Option Nat := indexOfFrom s pat 0

/-- JS `s.includes(pat)`. -/
def containsStr (s pat : Str) : Bool := (indexOfStr s pat).isSome

/-- JS `s.split(sep)` for a one-character separator. -/
def splitOnChar (sep : Char) : Str → List Str
  | [] => [[]]
  | c :: rest =>
    let r := splitOnChar sep rest
    if c = sep then [] :: r
    else
      match r with
      | [] => [[c]]
      | h :: t => (c :: h) :: t

/-- Concatenation with a separator string between consecutive pieces
(JS `arr.join` generalized; used both for `join("\n")` and to state what
`replaceAll` does). -/
def joinSep (sep : Str) : List Str → Str
  | [] => []
  | [l] => l
  | l :: l' :: rest => l ++ sep ++ joinSep sep (l' :: rest)

/-- JS `lines.join(sep)` for a one-character separator. -/
def joinWith (sep : Char) (lines : List Str) : Str := joinSep [sep] lines

/-- `content.split("\n")` as used throughout the edit tool. -/
def splitNl (s : Str) : List Str := splitOnChar '\n' s

/-- `lines.join("\n")` as used throughout the edit tool. -/
def joinNl (lines : List Str) : Str := joinWith '\n' lines

/-- JS `s.replace(old, new)` with a string pattern: replace the first
occurrence only (`$`-patterns in the replacement are not modelled). -/
def replaceFirst (s old new : Str) : Str :=
  match indexOfStr s old with
  | none => s
  | some i => s.take i ++ new ++ s.drop (i + old.length)

/-- Fueled worker for JS `s.replaceAll(old, new)` with non-empty `old`:
each step consumes at least one character, so `s.length` fuel suffices. -/
def replaceAllAux (old new : Str) : Nat → Str → Str
  | 0, s => s
  | fuel + 1, s =>
    match indexOfStr s old with
    | none => s
    | some i => s.take i ++ new ++ replaceAllAux old new fuel (s.drop (i + old.length))

/-- JS `s.replaceAll(old, new)`; for empty `old` JS inserts `new` before every
character and at the end. -/
def replaceAllStr (s old new : Str) : Str :=
  if old.isEmpty then new ++ (s.map (fun c => c :: new)).flatten
  else replaceAllAux old new s.length s

/-- Fueled worker counting the non-overlapping left-to-right occurrences of
`old`, as `content.match(new RegExp(escapeRegex(old), "g")).length` does. -/
def countOccAux (old : Str) : Nat → Str → Nat
  | 0, _ => 0
  | fuel + 1, s =>
    match indexOfStr s old with
    | none => 0
    | some i => 1 + countOccAux old fuel (s.drop (i + old.length))

/-- Number of matches of the escaped global regex for `old` in `s` (the count
reported by the batch replace-all branch); the empty pattern matches at every
position including the end. -/
def countOccurrences (s old : Str) : Nat :=
  if old.isEmpty then s.length + 1 else countOccAux old s.length s

/-- Fueled worker splitting `s` at the non-overlapping left-to-right
occurrences of `old` (the pieces between consecutive matches). -/
def splitOnStrAux (old : Str) : Nat → Str → List Str
  | 0, s => [s]
  | fuel + 1, s =>
    match indexOfStr s old with
    | none => [s]
    | some i => s.take i :: splitOnStrAux old fuel (s.drop (i + old.length))

/-- Pieces of `s` between the non-overlapping left-to-right occurrences of a
non-empty pattern `old`; reference decomposition used to state what
`replaceAll` does. -/
def splitOnStr (s old : Str) : List Str := splitOnStrAux old s.length s

/-- Descending insertion, modelling `[...m].sort((a, b) => b - a)`. -/
def insertDesc (x : Int) : List Int → List Int
  | [] => [x]
  | y :: ys => if x ≥ y then x :: y :: ys else y :: insertDesc x ys

/-- Numeric descending sort of the selected match ordinals. -/
def sortDesc (l : List Int) : List Int := l.foldr insertDesc []

/-- JS `arr.slice(a, b)` for lists (both bounds already clamped ≥ 0). -/
def sliceList {α : Type} (a b : Nat) (l : List α) : List α := (l.take b).drop a

/-- Whitespace test backing JS `trim` / `/^\s*/` on the characters that can
appear inside a split line. -/
def isWsChar (c : Char) : Bool :=
  c = ' ' ∨ c = '\t' ∨ c = '\r' ∨ c = '\x0b' ∨ c = '\x0c'

/-- JS `line.trim()` (no `\n` can occur inside a split line). -/
def trimStr (s : Str) : Str := (s.dropWhile isWsChar).reverse.dropWhile isWsChar |>.reverse

/-- JS `line.trimStart()`. -/
def trimStart (s : Str) : Str := s.dropWhile isWsChar

/-- JS `line.match(/^\s*/)[0]`: the leading whitespace of a line. -/
def leadingWs (s : Str) : Str := s.takeWhile isWsChar

/-- Last index of a character (for `dirname`). -/
def lastIndexOfChar (s : Str) (c : Char) : Option Nat :=
  (List.range s.length).filter (fun i => s.get? i = some c) |>.getLast?

/-- Node `path.dirname` on an already-resolved path. -/
def dirnameStr (p : Str) : Str :=
  match lastIndexOfChar p '/' with
  | none => str "."
  | some 0 => str "/"
  | some i => p.take i

example : str "ab" = ['a', 'b'] := by decide
example : splitNl (str "a\nb\nc") = [str "a", str "b", str "c"] := by decide
example : joinNl [str "a", str "c"] = str "a\nc" := by decide
example : indexOfStr (str "xaxa") (str "xa") = some 0 := by decide
example : replaceFirst (str "x\nx") (str "x") (str "y") = str "y\nx" := by decide
example : replaceAllStr (str "aaa") (str "aa") (str "b") = str "ba" := by decide
example : countOccurrences (str "aaa") (str "aa") = 1 := by decide
example : splitOnStr (str "xaxb") (str "x") = [[], str "a", str "b"] := by decide
example : sortDesc [0, 2, 1] = [2, 1, 0] := by decide
example : dirnameStr (str "/w/f") = str "/w" := by decide
example : dirnameStr (str "/wx") = str "/" := by decide
example : trimStr (str "  a b ") = str "a b" := by decide

/-! ## Data model -/

/-- `MatchInfo` from `tools/edit.ts`: one located occurrence.  Offsets are JS
numbers that session resolution may shift below zero, hence `Int`. -/
structure MatchInfo where
  index : Nat
  lineNumber : Nat
  startPos : Int
  endPos : Int
  contextBefore : List Str
  contextAfter : List Str
  matchedText : Str
deriving DecidableEq, Repr

/-- `SessionData` from `tools/edit.ts` (`matches` is a reserved word in Lean,
so the field is called `matchList`). -/
structure SessionData where
  sessionId : Str
  filePath : Str
  oldString : Str
  newString : Str
  matchList : List MatchInfo
  timestamp : Int
deriving DecidableEq, Repr

/-- One element of the `edits` array of the edit tool (duck-typed in the
source; optional fields model absent properties). -/
structure EditOp where
  oldString : Option Str
  newString : Option Str
  lineNumber : Option Int
  content : Option Str
  replaceAll : Bool
deriving DecidableEq, Repr

/-- Per-operation outcome recorded by the batch edit loop (the human-readable
`results` strings, abstracted to their kind and location data). -/
inductive OpOutcome where
  | invalidShape
  | bothShapes
  | deletedLine (lineNumber : Nat)
  | replacedAll (count : Nat)
  | replaced (lineNumber : Nat)
  | noMatches
  | invalidLineNumber
  | inserted (lineNumber : Int)
deriving DecidableEq, Repr

/-- Error kinds; one constructor per distinct `throw` site reached by the
modelled operations. -/
inductive Err where
  | outOfBounds
  | dangerousFile
  | requiresPriorRead
  | fileNotFound
  | notAFile
  | fileTooLarge
  | contentTooLarge
  | binaryFile
  | sameString
  | noMatches
  | invalidSession
  | sessionPathMismatch
  | invalidMatchIndex
  | noSelectionSpecified
  | destinationExists
  | ignoredFile
  | parentDirMissing
  | invalidEdits
  | rangeTooLarge
deriving DecidableEq, Repr

/-- Process state: the disk (path ↦ contents), existing directories, the
`FileReadTracker` set, the `EditTool.sessions` map, and a counter of
`writeFile` calls (for frame properties). -/
structure State where
  fs : List (Str × Str)
  dirs : List Str
  readFiles : List Str
  sessions : List (Str × SessionData)
  writes : Nat
deriving DecidableEq, Repr

/-! ## Path security, read tracker, shared validation -/

/-- `PathSecurity.checkDirectoryBounds`: reject a resolved path that does not
start (as a string) with the current working directory. -/
def checkDirectoryBounds (cwd p : Str) : Except Err Unit :=
  if cwd.isPrefixOf p then .ok () else .error .outOfBounds

/-- `PathSecurity.isDangerousFile`: the fixed denylist, with each JS regex
translated to the suffix/substring test it performs (`/x$/` ↦ ends-with,
`/x/` ↦ contains, `/x/i` ↦ contains after lower-casing). -/
def isDangerousFile (p : Str) : Bool :=
  let low := p.map Char.toLower
  (str ".env").isSuffixOf p ∨ containsStr p (str ".env.") ∨
  (str ".envrc").isSuffixOf p ∨ (str ".key").isSuffixOf p ∨
  (str ".pem").isSuffixOf p ∨ (str ".p12").isSuffixOf p ∨
  (str ".jks").isSuffixOf p ∨ (str ".keystore").isSuffixOf p ∨
  (str ".crt").isSuffixOf p ∨ (str ".csr").isSuffixOf p ∨
  (str ".pfx").isSuffixOf p ∨ (str "id_rsa").isSuffixOf p ∨
  (str "id_dsa").isSuffixOf p ∨ (str "id_ecdsa").isSuffixOf p ∨
  (str "id_ed25519").isSuffixOf p ∨ containsStr p (str ".ssh/") ∨
  containsStr p (str ".aws/") ∨ containsStr p (str ".kube/") ∨
  containsStr low (str "password") ∨ containsStr low (str "secret") ∨
  containsStr low (str "private")

/-- `PathSecurity.isBinaryFile` applied to file contents: null byte in the
first 1024 units, or more than 30 percent non-printable characters there (the
float ratio comparison is modelled exactly on rationals). -/
def isBinaryFileStr (content : Str) : Bool :=
  let sample := content.take 1024
  if sample.any (fun c => c.toNat = 0) then true
  else
    let nonPrintable :=
      (sample.filter (fun c => c.toNat < 32 ∧ c.toNat ≠ 9 ∧ c.toNat ≠ 10 ∧ c.toNat ≠ 13)).length
    decide (10 * nonPrintable > 3 * sample.length)

/-- `TOOL_CONSTANTS.MAX_FILE_SIZE`. -/
def MAX_FILE_SIZE : Nat := 10 * 1024 * 1024

/-- `ToolValidation.validateContentSize`. -/
def validateContentSize (content : Str) : Except Err Unit :=
  if content.length > MAX_FILE_SIZE then .error .contentTooLarge else .ok ()

/-- `fileReadTracker.isFileRead` (paths are pre-resolved in the model). -/
def isFileRead (st : State) (p : Str) : Bool := p ∈ st.readFiles

/-- `fileReadTracker.markFileAsRead` (`Set.add`). -/
def markFileAsRead (st : State) (p : Str) : State :=
  if p ∈ st.readFiles then st else { st with readFiles := p :: st.readFiles }

/-- `ToolValidation.validateFileAccess`. -/
def validateFileAccess (cwd : Str) (st : State) (p : Str) (requireRead : Bool) :
    Except Err Unit :=
  match checkDirectoryBounds cwd p with
  | .error e => .error e
  | .ok () =>
    if isDangerousFile p then .error .dangerousFile
    else if requireRead ∧ ¬ isFileRead st p then .error .requiresPriorRead
    else .ok ()

/-- A `writeFile` call: update the disk and count the call. -/
def writeFileS (st : State) (p content : Str) : State :=
  { st with fs := aupdate st.fs p content, writes := st.writes + 1 }

/-! ## Read tool (`tools/read.ts`, `lib/file-utils.ts`) -/

/-- `FileUtils.safeReadFile` with the read tool's default options: bounds
check, existence, size limit, and (under the `checkIsBinary` flag) the
dangerous-file denylist; returns the raw contents. -/
def safeReadFile (cwd : Str) (st : State) (p : Str) : Except Err Str :=
  match checkDirectoryBounds cwd p with
  | .error e => .error e
  | .ok () =>
    match alookup st.fs p with
    | none => .error .fileNotFound
    | some content =>
      if content.length > MAX_FILE_SIZE then .error .fileTooLarge
      else if isDangerousFile p then .error .dangerousFile
      else .ok content

/-- `FileUtils.readFileLines`: select a line range.  JS tests `endLine` for
truthiness, so an explicit `endLine = 0` falls back to the `maxLines` arm.
(The input schema restricts line arguments to positive integers, so JS
negative-index `slice` behavior is out of scope.) -/
def readFileLines (cwd : Str) (st : State) (p : Str)
    (startLine : Int) (endLine : Option Int) (maxLines : Int) :
    Except Err (Str × Nat) :=
  match safeReadFile cwd st p with
  | .error e => .error e
  | .ok content =>
    let lines := splitNl content
    let totalLines := lines.length
    let actualStartLine := max 1 startLine
    let actualEndLine :=
      match endLine with
      | some e => if e = 0 then min (actualStartLine + maxLines - 1) totalLines
                  else min e totalLines
      | none => min (actualStartLine + maxLines - 1) totalLines
    let selectedLines := sliceList (actualStartLine - 1).toNat actualEndLine.toNat lines
    .ok (joinNl selectedLines, totalLines)

/-- `OUTPUT_LIMIT`-style cap used by the read tool on a selected range. -/
def READ_RANGE_LIMIT : Nat := 20000

/-- `ReadTool.execute`: read a (possibly partial) line range and mark the
whole file as read.  The three range arguments are `none` when the caller
omitted them (the schema defaults are applied here, and `isRangeSpecified`
is their presence test). -/
def readExecute (cwd : Str) (st : State) (p : Str)
    (startLine? : Option Int) (endLine? : Option Int) (maxLines? : Option Int) :
    Except Err (State × Str) :=
  let startLine := startLine?.getD 1
  let maxLines := maxLines?.getD 20
  match readFileLines cwd st p startLine endLine? maxLines with
  | .error e => .error e
  | .ok (selectedContent, totalLines) =>
    let actualStartLine := max 1 startLine
    let actualEndLine :=
      match endLine? with
      | some e => if e = 0 then min (actualStartLine + maxLines - 1) (totalLines : Int)
                  else min e (totalLines : Int)
      | none => min (actualStartLine + maxLines - 1) (totalLines : Int)
    let isRangeSpecified := startLine?.isSome ∨ endLine?.isSome ∨ maxLines?.isSome
    let hasRangeLimit := isRangeSpecified ∨ actualEndLine < (totalLines : Int)
    if hasRangeLimit ∧ selectedContent.length > READ_RANGE_LIMIT then .error .rangeTooLarge
    else .ok (markFileAsRead st p, selectedContent)

/-! ## Write tool (`tools/write.ts`) -/

/-- `WriteTool.ensureParentDirectory`. -/
def ensureParentDirectory (st : State) (p : Str) (createParentDir : Bool) :
    Except Err State :=
  let parentDir := dirnameStr p
  if parentDir ∈ st.dirs then .ok st
  else if createParentDir then .ok { st with dirs := parentDir :: st.dirs }
  else .error .parentDirMissing

/-- `WriteTool.execute`: bounds/denylist validation, the read-before-write
gate for existing files, the size limit, parent-directory handling, the
write itself, and marking the path read afterwards. -/
def writeExecute (cwd : Str) (st : State) (p content : Str) (createParentDir : Bool) :
    Except Err State :=
  match validateFileAccess cwd st p false with
  | .error e => .error e
  | .ok () =>
    let fileExists := (alookup st.fs p).isSome
    if fileExists ∧ ¬ isFileRead st p then .error .requiresPriorRead
    else
      match validateContentSize content with
      | .error e => .error e
      | .ok () =>
        match ensureParentDirectory st p createParentDir with
        | .error e => .error e
        | .ok st1 => .ok (markFileAsRead (writeFileS st1 p content) p)

/-! ## Move and copy tools (`tools/move.ts`, `src/tools/copy.ts`) -/

/-- `MoveTool.validateCurrentDirectoryBounds` (identical in the copy tool):
string-prefix test of both endpoints against `process.cwd()`. -/
def validateCurrentDirectoryBounds (cwd fromPath toPath : Str) : Except Err Unit :=
  if ¬ cwd.isPrefixOf fromPath then .error .outOfBounds
  else if ¬ cwd.isPrefixOf toPath then .error .outOfBounds
  else .ok ()

/-- `MoveTool.execute`.  `ignores` is the `.gitignore` oracle
(`PathSecurity.isIgnoredByGit` depends on the contents of an external
ignore file, so the model takes it as part of the environment). -/
def moveExecute (cwd : Str) (ignores : Str → Bool) (st : State)
    (fromPath toPath : Str) (overwrite : Bool) : Except Err State :=
  match validateCurrentDirectoryBounds cwd fromPath toPath with
  | .error e => .error e
  | .ok () =>
    if isDangerousFile fromPath ∨ isDangerousFile toPath then .error .dangerousFile
    else if ignores fromPath ∨ ignores toPath then .error .ignoredFile
    else
      match alookup st.fs fromPath with
      | none => .error .fileNotFound
      | some content =>
        let destinationExists := (alookup st.fs toPath).isSome
        if destinationExists ∧ ¬ overwrite then .error .destinationExists
        else
          let destDir := dirnameStr toPath
          let st1 := if destDir ∈ st.dirs then st else { st with dirs := destDir :: st.dirs }
          .ok { st1 with fs := aupdate (aremove st1.fs fromPath) toPath content }

/-- `CopyTool.execute`: same guard sequence as move, but the source file
stays in place. -/
def copyExecute (cwd : Str) (ignores : Str → Bool) (st : State)
    (fromPath toPath : Str) (overwrite : Bool) : Except Err State :=
  match validateCurrentDirectoryBounds cwd fromPath toPath with
  | .error e => .error e
  | .ok () =>
    if isDangerousFile fromPath ∨ isDangerousFile toPath then .error .dangerousFile
    else if ignores fromPath ∨ ignores toPath then .error .ignoredFile
    else
      match alookup st.fs fromPath with
      | none => .error .fileNotFound
      | some content =>
        let destinationExists := (alookup st.fs toPath).isSome
        if destinationExists ∧ ¬ overwrite then .error .destinationExists
        else
          let destDir := dirnameStr toPath
          let st1 := if destDir ∈ st.dirs then st else { st with dirs := destDir :: st.dirs }
          .ok { st1 with fs := aupdate st1.fs toPath content }

/-! ## Edit tool (`tools/edit.ts`) -/

/-- `EditTool.normalizeLineEndings`: two global replacements, CRLF then bare
CR, both to LF. -/
def normalizeLineEndings (s : Str) : Str :=
  replaceAllStr (replaceAllStr s (str "\r\n") (str "\n")) (str "\r") (str "\n")

/-- `EditTool.SESSION_TIMEOUT` (5 minutes, in milliseconds). -/
def SESSION_TIMEOUT : Int := 5 * 60 * 1000

/-- `EditTool.cleanExpiredSessions` (defined in the source but never
invoked): drop sessions strictly older than the timeout at time `now`. -/
def cleanExpiredSessions (now : Int) (sessions : List (Str × SessionData)) :
    List (Str × SessionData) :=
  sessions.filter (fun pr => ¬ (now - pr.2.timestamp > SESSION_TIMEOUT))

/-- Positions found by the inner `while` loop of `EditTool.findMatches` on one
line: repeated `indexOf` restarting one character past each hit (the source
loop does not terminate on an empty search string; the fueled model returns
every position in that case). -/
def findMatchesLineAux (line search : Str) : Nat → Nat → List Nat
  | _, 0 => []
  | searchPos, fuel + 1 =>
    match indexOfFrom line search searchPos with
    | none => []
    | some p => p :: findMatchesLineAux line search (p + 1) fuel

/-- All match start positions within one line. -/
def findMatchesLine (line search : Str) : List Nat :=
  findMatchesLineAux line search 0 (line.length + 1)

/-- Worker of `EditTool.findMatches`: walk the lines keeping the running
line index, cumulative character position and match count. -/
def findMatchesGo (allLines : List Str) (search : Str) :
    List Str → Nat → Nat → Nat → List MatchInfo
  | [], _, _, _ => []
  | line :: rest, lineIndex, currentPos, cnt =>
    let ps := findMatchesLine line search
    let recs := ps.enum.map (fun pr =>
      ({ index := cnt + pr.1,
         lineNumber := lineIndex + 1,
         startPos := (currentPos + pr.2 : Int),
         endPos := (currentPos + pr.2 + search.length : Int),
         contextBefore := sliceList (lineIndex - 2) lineIndex allLines,
         contextAfter := sliceList (lineIndex + 1) (min allLines.length (lineIndex + 3)) allLines,
         matchedText := line } : MatchInfo))
    recs ++ findMatchesGo allLines search rest (lineIndex + 1) (currentPos + line.length + 1)
      (cnt + ps.length)

/-- `EditTool.findMatches`. -/
def findMatches (content search : Str) : List MatchInfo :=
  findMatchesGo (splitNl content) search (splitNl content) 0 0 0

/-- `EditTool.replaceAtMatch`: `substring(0, startPos) + repl +
substring(endPos)` (JS `substring` clamps negative offsets to 0, as `toNat`
does). -/
def replaceAtMatch (content : Str) (m : MatchInfo) (replacement : Str) : Str :=
  content.take m.startPos.toNat ++ replacement ++ content.drop m.endPos.toNat

/-- `EditTool.findLineNumber`: first line containing the search string,
1-based, defaulting to 1. -/
def findLineNumber (content search : Str) : Nat :=
  match (splitNl content).findIdx? (fun l => containsStr l search) with
  | some i => i + 1
  | none => 1

/-- `EditTool.findMultilineMatch`: 1-based starting line of the first
occurrence of a multi-line search string. -/
def findMultilineMatch (content search : Str) : Nat :=
  match indexOfStr content search with
  | none => 1
  | some i => (splitNl (content.take i)).length

/-- Which tier of `EditTool.tryFlexibleMatch` produced the write. -/
inductive FlexOutcome where
  | deletedLine
  | exactReplaced
  | flexReplaced (lineNumber : Nat)
deriving DecidableEq, Repr

/-- One candidate window of the whitespace-tolerant scan: the `oldLines.every`
test comparing trimmed lines at offset `i`. -/
def blockMatchAt (contentLines oldLines : List Str) (i : Nat) : Bool :=
  let potentialMatch := sliceList i (i + oldLines.length) contentLines
  potentialMatch.length = oldLines.length ∧
    (oldLines.zip potentialMatch).all (fun pr => trimStr pr.1 = trimStr pr.2)

/-- Re-indentation of the replacement block (`tryFlexibleMatch` lines
463-480): first line inherits the matched block's leading indentation,
later lines keep their indentation delta relative to the search block when
both have non-empty leading whitespace. -/
def reindentNew (contentLines oldLines : List Str) (newString : Str) (i : Nat) : List Str :=
  let originalIndent := leadingWs ((contentLines.get? i).getD [])
  (splitNl newString).enum.map (fun pr =>
    if pr.1 = 0 then originalIndent ++ trimStart pr.2
    else
      let oldIndent := leadingWs ((oldLines.get? pr.1).getD [])
      let newIndent := leadingWs pr.2
      if oldIndent ≠ [] ∧ newIndent ≠ [] then
        (originalIndent ++ newIndent.drop oldIndent.length) ++ trimStart pr.2
      else originalIndent ++ trimStart pr.2)

/-- Tiers 2 and 3 of `tryFlexibleMatch`: exact first-occurrence substring
replace, then the whitespace-tolerant block scan. -/
def tryFlexTail (content old new : Str) : Option (Str × FlexOutcome) :=
  if containsStr content old then some (replaceFirst content old new, .exactReplaced)
  else
    let oldLines := splitNl old
    let contentLines := splitNl content
    match (List.range (contentLines.length + 1 - oldLines.length)).find?
        (blockMatchAt contentLines oldLines) with
    | some i =>
      some (joinNl (contentLines.take i ++ reindentNew contentLines oldLines new i ++
              contentLines.drop (i + oldLines.length)), .flexReplaced (i + 1))
    | none => none

/-- `EditTool.tryFlexibleMatch` as a pure function on the content (the write
it performs is done by the caller in the model): full-line deletion tier,
then the two fallback tiers. -/
def tryFlexibleMatch (content old new : Str) : Option (Str × FlexOutcome) :=
  let lines := splitNl content
  match lines.findIdx? (fun l => l == old) with
  | some lineIndex =>
    if new = [] then some (joinNl (lines.eraseIdx lineIndex), .deletedLine)
    else tryFlexTail content old new
  | none => tryFlexTail content old new

/-- Replace-shape tiers 2 and 3 of the batch loop (`handleBatchEdit` lines
639-674): exact-substring replace-all or replace-first; there is no
whitespace-tolerant tier in the batch path. -/
def applyReplaceTail (content old new : Str) (replaceAll : Bool) : Str × Nat × OpOutcome :=
  if containsStr content old then
    if replaceAll then
      let count := countOccurrences content old
      (replaceAllStr content old new, count, .replacedAll count)
    else
      let matchLine :=
        if containsStr old (str "\n") then findMultilineMatch content old
        else findLineNumber content old
      (replaceFirst content old new, 1, .replaced matchLine)
  else (content, 0, .noMatches)

/-- Replace-shape handling of one batch operation (`handleBatchEdit` lines
614-674): full-line deletion tier, then the exact tier. -/
def applyReplaceOp (content old new : Str) (replaceAll : Bool) : Str × Nat × OpOutcome :=
  let normalizedOld := normalizeLineEndings old
  let normalizedNew := normalizeLineEndings new
  let lines := splitNl content
  match lines.findIdx? (fun l => l == normalizedOld) with
  | some lineIndex =>
    if normalizedNew = [] then
      (joinNl (lines.eraseIdx lineIndex), 1, .deletedLine (lineIndex + 1))
    else applyReplaceTail content normalizedOld normalizedNew replaceAll
  | none => applyReplaceTail content normalizedOld normalizedNew replaceAll

/-- JS `arr.splice(i, 0, x)` as a pure list insertion. -/
def insertAtList {α : Type} (l : List α) (i : Nat) (a : α) : List α :=
  l.take i ++ [a] ++ l.drop i

/-- Insert-shape handling of one batch operation (`handleBatchEdit` lines
675-696). -/
def applyInsertOp (content : Str) (lineNumber : Int) (insContent : Str) :
    Str × Nat × OpOutcome :=
  let lines := splitNl content
  if lineNumber < 1 ∨ lineNumber > (lines.length : Int) + 1 then
    (content, 0, .invalidLineNumber)
  else
    (joinNl (insertAtList lines (lineNumber - 1).toNat insContent), 1, .inserted lineNumber)

/-- One iteration of the batch loop: shape validation, then replace or
insert against the current in-memory buffer.  Returns the new buffer, the
number of changes recorded, and the per-operation outcome. -/
def applyEditOp (content : Str) (e : EditOp) : Str × Nat × OpOutcome :=
  let isReplace := e.oldString.isSome ∧ e.newString.isSome
  let isInsert := e.lineNumber.isSome ∧ e.content.isSome
  if ¬ isReplace ∧ ¬ isInsert then (content, 0, .invalidShape)
  else if isReplace ∧ isInsert then (content, 0, .bothShapes)
  else
    match e.oldString, e.newString with
    | some o, some n => applyReplaceOp content o n e.replaceAll
    | _, _ =>
      match e.lineNumber, e.content with
      | some ln, some c => applyInsertOp content ln c
      | _, _ => (content, 0, .invalidShape)

/-- Fold step accumulating buffer, change count and outcomes. -/
def batchStep (acc : Str × Nat × List OpOutcome) (e : EditOp) : Str × Nat × List OpOutcome :=
  let (c', d, o) := applyEditOp acc.1 e
  (c', acc.2.1 + d, acc.2.2 ++ [o])

/-- Result of a batch edit call. -/
structure BatchResult where
  state : State
  totalChanges : Nat
  outcomes : List OpOutcome
  finalContent : Str
deriving DecidableEq, Repr

/-- `EditTool.handleBatchEdit`: precondition gate (bounds, denylist,
read-before-edit), one read, sequential in-memory application, and at most
one write (only when some operation recorded a change). -/
def handleBatchEdit (cwd : Str) (st : State) (path : Str) (edits : List EditOp) :
    Except Err BatchResult :=
  match validateFileAccess cwd st path true with
  | .error e => .error e
  | .ok () =>
    match alookup st.fs path with
    | none => .error .fileNotFound
    | some raw =>
      let content := normalizeLineEndings raw
      let folded := edits.foldl batchStep (content, 0, [])
      let st' := if folded.2.1 > 0 then writeFileS st path folded.1 else st
      .ok ⟨st', folded.2.1, folded.2.2, folded.1⟩

/-- `EditTool.execute`: validate the `edits` array and delegate every call to
the batch path (the session machinery below is not reachable from here). -/
def editToolExecute (cwd : Str) (st : State) (path : Str) (edits : List EditOp) :
    Except Err BatchResult :=
  if edits.isEmpty then .error .invalidEdits
  else handleBatchEdit cwd st path edits

/-! ## Session store (`handleSessionReplace`, `handleReplace`) -/

/-- The in-place offset shift of the session loop: every stored match whose
start lies after the just-edited region moves by the length delta. -/
def shiftAfter (pivot delta : Int) (om : MatchInfo) : MatchInfo :=
  if om.startPos > pivot then
    { om with startPos := om.startPos + delta, endPos := om.endPos + delta }
  else om

/-- The explicit-ordinal loop of `handleSessionReplace`: process the
descending-sorted ordinals, failing the whole call on the first out-of-range
ordinal; each substitution shifts the stored offsets of every other match
lying after the edited region.  Returns the matches array as mutated so far
(the JS loop mutates the stored array in place), the accumulated content,
the replacement count, and the error if one was hit. -/
def applySelection (old new : Str) :
    List Int → List MatchInfo → Str → Nat → List MatchInfo × Str × Nat × Option Err
  | [], ms, content, cnt => (ms, content, cnt, none)
  | idx :: rest, ms, content, cnt =>
    if idx < 0 ∨ idx ≥ (ms.length : Int) then (ms, content, cnt, some .invalidMatchIndex)
    else
      match ms.get? idx.toNat with
      | none => applySelection old new rest ms content cnt
      | some m =>
        let newContent := content.take m.startPos.toNat ++ new ++ content.drop m.endPos.toNat
        let delta : Int := (new.length : Int) - (old.length : Int)
        let ms' := ms.map (shiftAfter m.startPos delta)
        applySelection old new rest ms' newContent (cnt + 1)

/-- `EditTool.handleSessionReplace`.  The returned state carries mutations
that persist even when the call throws (in-place mutation of the stored
matches array); the `Except` component is the call's result.  No timestamp
is consulted anywhere on this path. -/
def handleSessionReplace (st : State) (filePath sessionId : Str)
    (matchIndex : Option (List Int)) (replaceAll : Bool) : State × Except Err Nat :=
  match alookup st.sessions sessionId with
  | none => (st, .error .invalidSession)
  | some sessionData =>
    if sessionData.filePath ≠ filePath then (st, .error .sessionPathMismatch)
    else
      match alookup st.fs filePath with
      | none => (st, .error .fileNotFound)
      | some currentContent =>
        if replaceAll then
          let newContent :=
            replaceAllStr currentContent sessionData.oldString sessionData.newString
          let replacementCount := sessionData.matchList.length
          let st1 := writeFileS st filePath newContent
          ({ st1 with sessions := aremove st1.sessions sessionId }, .ok replacementCount)
        else
          match matchIndex with
          | some mi =>
            if mi.length > 0 then
              let sortedIndices := sortDesc mi
              let sel := applySelection sessionData.oldString sessionData.newString
                sortedIndices sessionData.matchList currentContent 0
              match sel.2.2.2 with
              | some e =>
                ({ st with sessions :=
                    aupdate st.sessions sessionId { sessionData with matchList := sel.1 } },
                 .error e)
              | none =>
                let st1 := writeFileS st filePath sel.2.1
                ({ st1 with sessions := aremove st1.sessions sessionId }, .ok sel.2.2.1)
            else (st, .error .noSelectionSpecified)
          | none => (st, .error .noSelectionSpecified)

/-- Which branch of `handleReplace` produced a successful result. -/
inductive ReplaceOutcome where
  | flexWrite (kind : FlexOutcome)
  | singleReplaced (lineNumber : Nat)
  | sessionCreated (sessionId : Str)
  | sessionResolved (count : Nat)
deriving DecidableEq, Repr

/-- `EditTool.handleReplace` (present in the source but never called by
`EditTool.execute`): same-string check, existence and binary checks, session
delegation, flexible tiers, and the exhaustive-enumeration fallback that
either replaces a unique match, errors on zero matches, or stores a fresh
disambiguation session.  `now` models `Date.now()` and `freshId` models
`generateSessionId()`. -/
def handleReplace (st : State) (filePath oldString newString : Str)
    (matchIndex : Option (List Int)) (replaceAll : Bool) (sessionId : Option Str)
    (now : Int) (freshId : Str) : State × Except Err ReplaceOutcome :=
  if oldString = newString then (st, .error .sameString)
  else
    match alookup st.fs filePath with
    | none => (st, .error .fileNotFound)
    | some raw =>
      if isBinaryFileStr raw then (st, .error .binaryFile)
      else
        let fileContent := normalizeLineEndings raw
        if fileContent.length > MAX_FILE_SIZE then (st, .error .contentTooLarge)
        else
          let normalizedOldString := normalizeLineEndings oldString
          let normalizedNewString := normalizeLineEndings newString
          match sessionId with
          | some sid =>
            let res := handleSessionReplace st filePath sid matchIndex replaceAll
            (res.1, res.2.map .sessionResolved)
          | none =>
            match tryFlexibleMatch fileContent normalizedOldString normalizedNewString with
            | some fr => (writeFileS st filePath fr.1, .ok (.flexWrite fr.2))
            | none =>
              let ms := findMatches fileContent normalizedOldString
              match ms with
              | [] => (st, .error .noMatches)
              | [m] =>
                (writeFileS st filePath (replaceAtMatch fileContent m newString),
                 .ok (.singleReplaced m.lineNumber))
              | _ =>
                let sessionData : SessionData :=
                  ⟨freshId, filePath, oldString, newString, ms, now⟩
                ({ st with sessions := aupdate st.sessions freshId sessionData },
                 .ok (.sessionCreated freshId))

/-! ## Reference definitions taken from the claims' own words (for the
refinement-style claims; clearly separated from the source embedding). -/

/-- Modelled from the claim (C1): a resolved path is a descendant of the
working directory when it equals it or extends it past a path separator. -/
def specIsDescendant (cwd p : Str) : Bool :=
  p = cwd ∨ (cwd ++ str "/").isPrefixOf p

/-- Modelled from the claim (C7): greedy left-to-right scan counting
non-overlapping occurrences of `s` in one line. -/
def specScanAux (s : Str) : Nat → Str → Nat
  | 0, _ => 0
  | fuel + 1, rest =>
    if rest = [] then 0
    else if s.isPrefixOf rest then 1 + specScanAux s fuel (rest.drop (max 1 s.length))
    else specScanAux s fuel (rest.drop 1)

/-- Modelled from the claim (C7): total non-overlapping occurrences of `s`
obtained by splitting `c` on newlines and scanning each line. -/
def specNonOverlapCount (c s : Str) : Nat :=
  ((splitNl c).map (fun line => specScanAux s line.length line)).sum

/-- Occurrence start positions of `s` inside one line (positional
characterization used to state what `findMatches` actually returns). -/
def lineOccStarts (line s : Str) : List Nat :=
  (List.range (line.length + 1)).filter (fun p => occursAt line s p)

/-- Outcomes under which the batch loop records no change. -/
def isFailureOutcome : OpOutcome → Bool
  | .invalidShape => true
  | .bothShapes => true
  | .noMatches => true
  | .invalidLineNumber => true
  | _ => false

/-! ## Concrete fixtures used by the claim theorems and witnesses -/

/-- Empty process state with just the root directory. -/
def st0 : State := State.mk [] [str "/"] [] [] 0

/-- State holding one already-read two-occurrence file. -/
def stTwo : State :=
  State.mk [(str "/w/f", str "x\nx")] [str "/w"] [str "/w/f"] [] 0

/-- State holding one already-read single-occurrence file. -/
def stOne : State :=
  State.mk [(str "/w/f", str "a\nx\nb")] [str "/w"] [str "/w/f"] [] 0

/-- Indented block content for the whitespace-tolerant example. -/
def wsContent : Str := str "  if (x) \x7b\n    y();\n  \x7d"

/-- Differently indented search block. -/
def wsOld : Str := str "if (x) \x7b\n  y();\n\x7d"

/-- Replacement block. -/
def wsNew : Str := str "if (x) \x7b\n  z();\n\x7d"

/-- State holding the already-read indented block file. -/
def stWs : State := State.mk [(str "/w/f", wsContent)] [str "/w"] [str "/w/f"] [] 0

/-- The matches of the spec's three-occurrence disambiguation scenario. -/
def msThree : List MatchInfo := findMatches (str "x\nx\nx") (str "x")

/-- A stored session for the three-occurrence scenario (created at time 0). -/
def sdThree : SessionData :=
  SessionData.mk (str "s1") (str "/w/f") (str "x") (str "y") msThree 0

/-- State holding the three-occurrence file plus its pending session. -/
def stThree : State :=
  State.mk [(str "/w/f", str "x\nx\nx")] [str "/w"] [str "/w/f"]
    [(str "s1", sdThree)] 0

/-- State holding an already-read one-character file. -/
def stA : State := State.mk [(str "/w/f", str "a")] [str "/w"] [str "/w/f"] [] 0

/-- State holding an already-read three-line file. -/
def stAbc : State :=
  State.mk [(str "/w/f", str "a\nb\nc")] [str "/w"] [str "/w/f"] [] 0

/-- State holding a two-line file that has not been read yet. -/
def stUnread : State := State.mk [(str "/w/f", str "l1\nl2")] [str "/w"] [] [] 0

/-- A replace-shape edit operation. -/
def mkReplace (o n : String) : EditOp := EditOp.mk (some (str o)) (some (str n)) none none false

/-- Reference resolver for explicit ordinals: splice the replacement over
each selected match's ORIGINALLY stored range, in the given order, with no
offset-shift bookkeeping.  Stating that `applySelection` equals this on
descending-sorted selections expresses that the shift bookkeeping never
disturbs a pending selection, i.e. exactly the selected stored ranges are
replaced. -/
def selSplice (ms : List MatchInfo) (new : Str) : List Int → Str → Str
  | [], s => s
  | i :: rest, s =>
    match ms.get? i.toNat with
    | none => selSplice ms new rest s
    | some m => selSplice ms new rest (s.take m.startPos.toNat ++ new ++ s.drop m.endPos.toNat)

/-! ## Infrastructure lemmas -/

theorem alookup_aupdate_self {β : Type} (l : List (Str × β)) (k : Str) (v : β) :
    alookup (aupdate l k v) k = some v := by
  induction l with
  | nil => simp [aupdate, alookup]
  | cons hd tl ih =>
    obtain ⟨k', v'⟩ := hd
    by_cases h : k' = k
    · simp [aupdate, h, alookup]
    · simp [aupdate, h, alookup, ih]

theorem alookup_aremove_self {β : Type} (l : List (Str × β)) (k : Str) :
    alookup (aremove l k) k = none := by
  induction l with
  | nil => simp [aremove, alookup]
  | cons hd tl ih =>
    obtain ⟨k', v'⟩ := hd
    by_cases h : k' = k
    · simp [aremove, h, ih]
    · simp [aremove, h, alookup, ih]

theorem aremove_aupdate_self {β : Type} (l : List (Str × β)) (k : Str) (v : β) :
    aremove (aupdate l k v) k = aremove l k := by
  induction l with
  | nil => simp [aupdate, aremove]
  | cons hd tl ih =>
    obtain ⟨k', v'⟩ := hd
    by_cases h : k' = k
    · simp [aupdate, aremove, h]
    · simp [aupdate, aremove, h, ih]

theorem mem_markFileAsRead (st : State) (p : Str) :
    p ∈ (markFileAsRead st p).readFiles := by
  by_cases h : p ∈ st.readFiles <;> simp [markFileAsRead, h]

theorem markFileAsRead_fs (st : State) (p : Str) :
    (markFileAsRead st p).fs = st.fs := by
  by_cases h : p ∈ st.readFiles <;> simp [markFileAsRead, h]

theorem markFileAsRead_dirs (st : State) (p : Str) :
    (markFileAsRead st p).dirs = st.dirs := by
  by_cases h : p ∈ st.readFiles <;> simp [markFileAsRead, h]

theorem markFileAsRead_sessions (st : State) (p : Str) :
    (markFileAsRead st p).sessions = st.sessions := by
  by_cases h : p ∈ st.readFiles <;> simp [markFileAsRead, h]

/-! Characterization of the `indexOf` scan. -/

theorem idxAux_some {s pat : Str} {p fuel q : Nat}
    (h : idxAux s pat p fuel = some q) :
    p ≤ q ∧ q < p + fuel ∧ occursAt s pat q = true ∧
      ∀ r, p ≤ r → r < q → occursAt s pat r = false := by
  induction fuel generalizing p with
  | zero => simp [idxAux] at h
  | succ n ih =>
    by_cases hp : occursAt s pat p = true
    · simp [idxAux, hp] at h
      subst h
      exact ⟨le_refl _, by omega, hp, fun r h1 h2 => absurd h1 (by omega)⟩
    · simp [idxAux, hp] at h
      obtain ⟨h1, h2, h3, h4⟩ := ih h
      refine ⟨by omega, by omega, h3, fun r hr1 hr2 => ?_⟩
      rcases Nat.eq_or_lt_of_le hr1 with he | hl
      · subst he; simpa using hp
      · exact h4 r hl hr2

theorem idxAux_none {s pat : Str} {p fuel : Nat}
    (h : idxAux s pat p fuel = none) :
    ∀ q, p ≤ q → q < p + fuel → occursAt s pat q = false := by
  induction fuel generalizing p with
  | zero => omega
  | succ n ih =>
    by_cases hp : occursAt s pat p = true
    · simp [idxAux, hp] at h
    · simp [idxAux, hp] at h
      intro q h1 h2
      rcases Nat.eq_or_lt_of_le h1 with he | hl
      · subst he; simpa using hp
      · exact ih h q hl (by omega)

theorem occursAt_pos_le {s pat : Str} {q : Nat} (h : occursAt s pat q = true)
    (hq : s.length < q) : pat = [] := by
  unfold occursAt at h
  rw [List.isPrefixOf_iff_prefix] at h
  have : s.drop q = [] := List.drop_eq_nil_of_le (by omega)
  rw [this] at h
  exact List.prefix_nil.mp h

theorem indexOfFrom_some {s pat : Str} {start q : Nat}
    (h : indexOfFrom s pat start = some q) :
    start ≤ q ∧ occursAt s pat q = true ∧
      ∀ r, start ≤ r → r < q → occursAt s pat r = false := by
  obtain ⟨h1, _, h3, h4⟩ := idxAux_some h
  exact ⟨h1, h3, h4⟩

theorem indexOfFrom_none {s pat : Str} {start : Nat}
    (h : indexOfFrom s pat start = none) :
    ∀ q, start ≤ q → q ≤ s.length → occursAt s pat q = false := by
  intro q h1 h2
  exact idxAux_none h q h1 (by omega)

theorem indexOfFrom_none_all {s pat : Str} {start : Nat}
    (h : indexOfFrom s pat start = none) (hpat : pat ≠ []) :
    ∀ q, start ≤ q → occursAt s pat q = false := by
  intro q h1
  by_cases hq : q ≤ s.length
  · exact indexOfFrom_none h q h1 hq
  · by_cases hocc : occursAt s pat q = true
    · exact absurd (occursAt_pos_le hocc (by omega)) hpat
    · simpa using hocc

theorem containsStr_iff_within (s pat : Str) :
    containsStr s pat = true ↔ pat <:+: s := by
  constructor
  · intro h
    unfold containsStr at h
    rw [Option.isSome_iff_exists] at h
    obtain ⟨q, hq⟩ := h
    obtain ⟨_, hocc, _⟩ := indexOfFrom_some hq
    unfold occursAt at hocc
    rw [List.isPrefixOf_iff_prefix] at hocc
    exact hocc.isInfix.trans (List.drop_suffix q s).isInfix
  · rintro ⟨t₁, t₂, rfl⟩
    unfold containsStr indexOfStr
    cases hidx : indexOfFrom (t₁ ++ pat ++ t₂) pat 0 with
    | some q => simp
    | none =>
      exfalso
      have hocc := indexOfFrom_none hidx t₁.length (Nat.zero_le _)
        (by simp [List.length_append])
      unfold occursAt at hocc
      have hdrop : (t₁ ++ pat ++ t₂).drop t₁.length = pat ++ t₂ := by
        rw [List.append_assoc, List.drop_append_of_le_length (le_refl _)]
        simp
      rw [hdrop] at hocc
      have htrue : pat.isPrefixOf (pat ++ t₂) = true :=
        List.isPrefixOf_iff_prefix.mpr (List.prefix_append _ _)
      simp [htrue] at hocc

theorem containsStr_of_infix_contains {s piece pat : Str}
    (hpiece : piece <:+: s) (h : containsStr piece pat = true) :
    containsStr s pat = true := by
  rw [containsStr_iff_within] at h ⊢
  exact h.trans hpiece

/-! Lemmas about the line splitter. -/

theorem splitOnChar_ne_nil (sep : Char) (s : Str) : splitOnChar sep s ≠ [] := by
  cases s with
  | nil => simp [splitOnChar]
  | cons c rest =>
    by_cases h : c = sep
    · simp [splitOnChar, h]
    · simp only [splitOnChar, if_neg h]
      cases splitOnChar sep rest <;> simp

theorem splitOnChar_structure (sep : Char) (s : Str) :
    (splitOnChar sep s).head? = some ((splitOnChar sep s).headD []) ∧
    (splitOnChar sep s).headD [] <+: s ∧
    ∀ piece ∈ (splitOnChar sep s).tail, piece <:+: s := by
  induction s with
  | nil => simp [splitOnChar]
  | cons c rest ih =>
    obtain ⟨_, ih2, ih3⟩ := ih
    by_cases h : c = sep
    · subst h
      refine ⟨by simp [splitOnChar], by simp [splitOnChar], ?_⟩
      simp only [splitOnChar, if_pos rfl, List.tail_cons]
      intro piece hp
      rcases (splitOnChar c rest).eq_nil_or_concat with hnil | _
      · exact absurd hnil (splitOnChar_ne_nil c rest)
      · cases hsp : splitOnChar c rest with
        | nil => exact absurd hsp (splitOnChar_ne_nil c rest)
        | cons hd tl =>
          rw [hsp] at hp
          rcases List.mem_cons.mp hp with rfl | hmem
          · rw [hsp] at ih2
            simp at ih2
            exact (ih2.isInfix).trans (List.suffix_cons c rest).isInfix
          · rw [hsp] at ih3
            exact (ih3 piece hmem).trans (List.suffix_cons c rest).isInfix
    · cases hsp : splitOnChar sep rest with
      | nil => exact absurd hsp (splitOnChar_ne_nil sep rest)
      | cons hd tl =>
        simp only [splitOnChar, if_neg h, hsp]
        rw [hsp] at ih2 ih3
        simp at ih2
        refine ⟨by simp, by simpa using List.cons_prefix_cons.mpr ⟨(rfl : c = c), ih2⟩, ?_⟩
        intro piece hp
        exact ((ih3 piece (by simpa using hp)).trans (List.suffix_cons c rest).isInfix)

theorem mem_splitOnChar_within {sep : Char} {s piece : Str}
    (h : piece ∈ splitOnChar sep s) : piece <:+: s := by
  obtain ⟨h1, h2, h3⟩ := splitOnChar_structure sep s
  cases hsp : splitOnChar sep s with
  | nil => exact absurd hsp (splitOnChar_ne_nil sep s)
  | cons hd tl =>
    rw [hsp] at h
    rcases List.mem_cons.mp h with rfl | hmem
    · rw [hsp] at h2; simpa using h2.isInfix
    · rw [hsp] at h3; exact h3 piece hmem

theorem containsStr_line_of_mem {content line pat : Str}
    (hline : line ∈ splitNl content) (h : containsStr line pat = true) :
    containsStr content pat = true :=
  containsStr_of_infix_contains (mem_splitOnChar_within hline) h

/-! Lemmas tying `replaceAll`, the occurrence count and the piece
decomposition together. -/

theorem joinSep_cons (sep a : Str) {l : List Str} (h : l ≠ []) :
    joinSep sep (a :: l) = a ++ sep ++ joinSep sep l := by
  cases l with
  | nil => exact absurd rfl h
  | cons b t => rfl

theorem splitOnStrAux_ne_nil (old : Str) (fuel : Nat) (s : Str) :
    splitOnStrAux old fuel s ≠ [] := by
  cases fuel with
  | zero => simp [splitOnStrAux]
  | succ n =>
    unfold splitOnStrAux
    cases indexOfStr s old <;> simp

theorem occursAt_decompose {s old : Str} {i : Nat} (h : occursAt s old i = true)
    (hi : i ≤ s.length) :
    s.take i ++ old ++ s.drop (i + old.length) = s ∧ i + old.length ≤ s.length := by
  unfold occursAt at h
  rw [List.isPrefixOf_iff_prefix] at h
  obtain ⟨t, ht⟩ := h
  have hlen : old.length + t.length = s.length - i := by
    have := congrArg List.length ht
    simpa [List.length_append, List.length_drop] using this
  constructor
  · have hdrop2 : s.drop (i + old.length) = t := by
      have h2 : (s.drop i).drop old.length = t := by rw [← ht]; simp
      rw [List.drop_drop] at h2
      simpa [Nat.add_comm] using h2
    rw [hdrop2]
    calc s.take i ++ old ++ t = s.take i ++ (old ++ t) := by rw [List.append_assoc]
    _ = s.take i ++ s.drop i := by rw [ht]
    _ = s := List.take_append_drop i s
  · omega

theorem indexOfStr_bounds {s old : Str} {i : Nat} (h : indexOfStr s old = some i) :
    i ≤ s.length ∧ occursAt s old i = true ∧
      ∀ r, r < i → occursAt s old r = false := by
  have h2 := @idxAux_some s old 0 (s.length + 1 - 0) i h
  obtain ⟨_, hub, hocc, hleast⟩ := h2
  exact ⟨by omega, hocc, fun r hr => hleast r (Nat.zero_le _) hr⟩

theorem containsStr_nil {old : Str} (hold : old ≠ []) :
    containsStr [] old = false := by
  by_cases h : containsStr [] old = true
  · rw [containsStr_iff_within] at h
    obtain ⟨t₁, t₂, he⟩ := h
    have := congrArg List.length he
    simp [List.length_append] at this
    exact absurd this.2.1 hold
  · simpa using h

theorem containsStr_take_of_least {s old : Str} {i : Nat}
    (hidx : indexOfStr s old = some i) (hold : old ≠ []) :
    containsStr (s.take i) old = false := by
  obtain ⟨hi, _, hleast⟩ := indexOfStr_bounds hidx
  by_cases h : containsStr (s.take i) old = true
  · exfalso
    rw [containsStr_iff_within] at h
    obtain ⟨t₁, t₂, he⟩ := h
    have hlen : t₁.length + (old.length + t₂.length) = i := by
      have := congrArg List.length he
      simpa [List.length_append, List.length_take, Nat.min_eq_left hi] using this
    have holdlen : 1 ≤ old.length := by
      cases old with
      | nil => exact absurd rfl hold
      | cons _ _ => simp
    have hq : occursAt s old t₁.length = true := by
      unfold occursAt
      rw [List.isPrefixOf_iff_prefix]
      have hs : s = t₁ ++ ((old ++ t₂) ++ s.drop i) := by
        conv_lhs => rw [← List.take_append_drop i s, ← he]
        simp [List.append_assoc]
      have hdropeq : s.drop t₁.length = (old ++ t₂) ++ s.drop i := by
        conv_lhs => rw [hs]
        exact List.drop_left t₁ _
      exact ⟨t₂ ++ s.drop i, by rw [hdropeq, List.append_assoc]⟩
    have := hleast t₁.length (by omega)
    rw [hq] at this
    exact Bool.noConfusion this
  · simpa using h

theorem splitReplaceCount (old new : Str) (hold : old ≠ []) :
    ∀ fuel s, s.length ≤ fuel →
      joinSep old (splitOnStrAux old fuel s) = s ∧
      replaceAllAux old new fuel s = joinSep new (splitOnStrAux old fuel s) ∧
      countOccAux old fuel s = (splitOnStrAux old fuel s).length - 1 ∧
      ∀ piece ∈ splitOnStrAux old fuel s, containsStr piece old = false := by
  intro fuel
  induction fuel with
  | zero =>
    intro s hs
    have : s = [] := List.length_eq_zero.mp (by omega)
    subst this
    refine ⟨rfl, rfl, rfl, ?_⟩
    intro piece hp
    simp [splitOnStrAux] at hp
    subst hp
    exact containsStr_nil hold
  | succ n ih =>
    intro s hs
    cases hidx : indexOfStr s old with
    | none =>
      refine ⟨by simp [splitOnStrAux, hidx, joinSep], by simp [replaceAllAux, hidx, splitOnStrAux, joinSep],
        by simp [countOccAux, hidx, splitOnStrAux], ?_⟩
      intro piece hp
      simp [splitOnStrAux, hidx] at hp
      subst hp
      simpa [containsStr] using congrArg Option.isSome hidx
    | some i =>
      obtain ⟨hi, hocc, _⟩ := indexOfStr_bounds hidx
      obtain ⟨hdec, hle⟩ := occursAt_decompose hocc hi
      have holdlen : 1 ≤ old.length := by
        cases old with
        | nil => exact absurd rfl hold
        | cons _ _ => simp
      have hrest : (s.drop (i + old.length)).length ≤ n := by
        rw [List.length_drop]; omega
      obtain ⟨ih1, ih2, ih3, ih4⟩ := ih (s.drop (i + old.length)) hrest
      have hne := splitOnStrAux_ne_nil old n (s.drop (i + old.length))
      refine ⟨?_, ?_, ?_, ?_⟩
      · simp only [splitOnStrAux, hidx]
        rw [joinSep_cons old _ hne, ih1]
        exact hdec
      · simp only [replaceAllAux, splitOnStrAux, hidx]
        rw [joinSep_cons new _ hne, ih2]
      · simp only [countOccAux, splitOnStrAux, hidx, List.length_cons]
        have : 1 ≤ (splitOnStrAux old n (s.drop (i + old.length))).length := by
          cases h : splitOnStrAux old n (s.drop (i + old.length)) with
          | nil => exact absurd h hne
          | cons _ _ => simp
        omega
      · intro piece hp
        simp only [splitOnStrAux, hidx] at hp
        rcases List.mem_cons.mp hp with rfl | hmem
        · exact containsStr_take_of_least hidx hold
        · exact ih4 piece hmem

theorem splitOnStr_spec (s old new : Str) (hold : old ≠ []) :
    joinSep old (splitOnStr s old) = s ∧
    replaceAllStr s old new = joinSep new (splitOnStr s old) ∧
    countOccurrences s old = (splitOnStr s old).length - 1 ∧
    ∀ piece ∈ splitOnStr s old, containsStr piece old = false := by
  have h := splitReplaceCount old new hold s.length s (le_refl _)
  have hne : old.isEmpty = false := by
    cases old with
    | nil => exact absurd rfl hold
    | cons _ _ => rfl
  simp only [splitOnStr, replaceAllStr, countOccurrences, hne, Bool.false_eq_true, if_false]
  exact h

theorem countOccurrences_pos {s old : Str} (h : containsStr s old = true) :
    1 ≤ countOccurrences s old := by
  by_cases hold : old = []
  · subst hold; simp [countOccurrences, List.isEmpty]
  · have hne : old.isEmpty = false := by
      cases old with
      | nil => exact absurd rfl hold
      | cons _ _ => rfl
    simp only [countOccurrences, hne, Bool.false_eq_true, if_false]
    unfold containsStr at h
    rw [Option.isSome_iff_exists] at h
    obtain ⟨i, hi⟩ := h
    obtain ⟨hile, hocc, _⟩ := indexOfStr_bounds hi
    have holdlen : 1 ≤ old.length := by
      cases old with
      | nil => exact absurd rfl hold
      | cons _ _ => simp
    obtain ⟨_, hle⟩ := occursAt_decompose hocc hile
    have hslen : 1 ≤ s.length := by omega
    cases hn : s.length with
    | zero => omega
    | succ m =>
      simp only [countOccAux, hi]
      omega

/-! Positional characterization of the per-line match scan. -/

theorem lineOccStarts_sorted (line s : Str) :
    (lineOccStarts line s).Pairwise (· < ·) :=
  List.Pairwise.filter _ (List.pairwise_lt_range _)

theorem mem_lineOccStarts {line s : Str} {p : Nat} :
    p ∈ lineOccStarts line s ↔ p < line.length + 1 ∧ occursAt line s p = true := by
  unfold lineOccStarts
  rw [List.mem_filter, List.mem_range]

theorem sorted_filter_split {l : List Nat} {p sp : Nat}
    (hsort : l.Pairwise (· < ·)) (hmem : p ∈ l) (hsp : sp ≤ p)
    (hmin : ∀ q ∈ l, sp ≤ q → p ≤ q) :
    l.filter (fun q => decide (sp ≤ q)) = p :: l.filter (fun q => decide (p + 1 ≤ q)) := by
  induction l with
  | nil => exact absurd hmem (List.not_mem_nil p)
  | cons h t ih =>
    have hpair := List.pairwise_cons.mp hsort
    by_cases hh : sp ≤ h
    · have hhp : p = h := by
        have hph : p ≤ h := hmin h (List.mem_cons_self h t) hh
        rcases List.mem_cons.mp hmem with rfl | hpt
        · rfl
        · exact absurd (hpair.1 p hpt) (by omega)
      subst hhp
      have htall : ∀ q ∈ t, p < q := hpair.1
      have h1 : t.filter (fun q => decide (sp ≤ q)) = t :=
        List.filter_eq_self.mpr (fun a ha => by
          have := htall a ha; simp; omega)
      have h2 : t.filter (fun q => decide (p + 1 ≤ q)) = t :=
        List.filter_eq_self.mpr (fun a ha => by
          have := htall a ha; simp; omega)
      simp only [List.filter_cons]
      rw [if_pos (by simpa using hh), if_neg (by simp)]
      rw [h1, h2]
    · have hph : p ∈ t := by
        rcases List.mem_cons.mp hmem with rfl | hpt
        · exact absurd hsp hh
        · exact hpt
      simp only [List.filter_cons]
      rw [if_neg (by simpa using hh), if_neg (by simp; omega)]
      exact ih hpair.2 hph (fun q hq hq2 => hmin q (List.mem_cons_of_mem h hq) hq2)

theorem findMatchesLineAux_eq (line s : Str) :
    ∀ fuel sp, line.length + 1 ≤ sp + fuel →
      findMatchesLineAux line s sp fuel =
        (lineOccStarts line s).filter (fun q => decide (sp ≤ q)) := by
  intro fuel
  induction fuel with
  | zero =>
    intro sp hsp
    rw [findMatchesLineAux]
    symm
    rw [List.filter_eq_nil_iff]
    intro a ha
    have := mem_lineOccStarts.mp ha
    simp
    omega
  | succ n ih =>
    intro sp hsp
    cases hidx : indexOfFrom line s sp with
    | none =>
      simp only [findMatchesLineAux, hidx]
      symm
      rw [List.filter_eq_nil_iff]
      intro a ha
      obtain ⟨halen, haocc⟩ := mem_lineOccStarts.mp ha
      simp only [decide_eq_true_eq]
      intro hspa
      have := indexOfFrom_none hidx a hspa (by omega)
      rw [haocc] at this
      exact Bool.noConfusion this
    | some p =>
      obtain ⟨hsp2, hocc, hleast⟩ := indexOfFrom_some hidx
      have hpbound : p < line.length + 1 := by
        have := @idxAux_some line s sp (line.length + 1 - sp) p hidx
        omega
      have hpmem : p ∈ lineOccStarts line s := mem_lineOccStarts.mpr ⟨hpbound, hocc⟩
      simp only [findMatchesLineAux, hidx]
      rw [ih (p + 1) (by omega)]
      exact (sorted_filter_split (lineOccStarts_sorted line s) hpmem hsp2
        (fun q hq hq2 => by
          by_contra hlt
          push_neg at hlt
          have := hleast q hq2 hlt
          rw [(mem_lineOccStarts.mp hq).2] at this
          exact Bool.noConfusion this)).symm

theorem findMatchesLine_eq (line s : Str) :
    findMatchesLine line s = lineOccStarts line s := by
  unfold findMatchesLine
  rw [findMatchesLineAux_eq line s (line.length + 1) 0 (by omega)]
  exact List.filter_eq_self.mpr (fun a _ => by simp)

theorem findMatchesGo_map (allLines : List Str) (search : Str) :
    ∀ ls li pos cnt,
      (findMatchesGo allLines search ls li pos cnt).map (fun m => (m.lineNumber, m.matchedText)) =
        (List.enumFrom li ls).flatMap
          (fun pr => List.replicate (lineOccStarts pr.2 search).length (pr.1 + 1, pr.2)) := by
  intro ls
  induction ls with
  | nil => intro li pos cnt; simp [findMatchesGo]
  | cons line rest ih =>
    intro li pos cnt
    rw [findMatchesGo]
    simp only [List.map_append, List.enumFrom_cons, List.flatMap_cons]
    rw [ih (li + 1) (pos + line.length + 1) (cnt + (findMatchesLine line search).length)]
    congr 1
    rw [List.map_map]
    have : ((fun m : MatchInfo => (m.lineNumber, m.matchedText)) ∘ fun pr : Nat × Nat =>
        ({ index := cnt + pr.1, lineNumber := li + 1,
           startPos := (pos + pr.2 : Int), endPos := (pos + pr.2 + search.length : Int),
           contextBefore := sliceList (li - 2) li allLines,
           contextAfter := sliceList (li + 1) (min allLines.length (li + 3)) allLines,
           matchedText := line } : MatchInfo)) = fun _ => (li + 1, line) := by
      funext pr; rfl
    rw [this, List.map_const']
    rw [List.enum_length, findMatchesLine_eq]

theorem findMatches_map (c s : Str) :
    (findMatches c s).map (fun m => (m.lineNumber, m.matchedText)) =
      ((splitNl c).enum).flatMap
        (fun pr => List.replicate (lineOccStarts pr.2 s).length (pr.1 + 1, pr.2)) :=
  findMatchesGo_map (splitNl c) s (splitNl c) 0 0 0

/-! Lemmas showing the session-creation branch is unreachable. -/

theorem tryFlexTail_none_contains {content old new : Str}
    (h : tryFlexTail content old new = none) : containsStr content old = false := by
  by_cases hc : containsStr content old = true
  · rw [tryFlexTail, if_pos hc] at h
    exact Option.noConfusion h
  · simpa using hc

theorem tryFlexibleMatch_none_contains {content old new : Str}
    (h : tryFlexibleMatch content old new = none) : containsStr content old = false := by
  simp only [tryFlexibleMatch] at h
  cases hidx : (splitNl content).findIdx? (fun l => l == old) with
  | none =>
    simp only [hidx] at h
    exact tryFlexTail_none_contains h
  | some li =>
    simp only [hidx] at h
    by_cases hnew : new = []
    · rw [if_pos hnew] at h
      exact Option.noConfusion h
    · rw [if_neg hnew] at h
      exact tryFlexTail_none_contains h

theorem findMatchesLine_nil_of_not_contains {line old : Str}
    (h : containsStr line old = false) : findMatchesLine line old = [] := by
  rw [findMatchesLine_eq]
  unfold lineOccStarts
  rw [List.filter_eq_nil_iff]
  intro p hp
  rw [List.mem_range] at hp
  intro hocc
  have hinf : old <:+: line := by
    have hpre : old <+: line.drop p := List.isPrefixOf_iff_prefix.mp hocc
    exact hpre.isInfix.trans (List.drop_suffix p line).isInfix
  rw [(containsStr_iff_within line old).mpr hinf] at h
  exact Bool.noConfusion h

theorem findMatchesGo_nil {allLines : List Str} {search : Str}
    (hall : ∀ line ∈ allLines, containsStr line search = false) :
    ∀ ls, (∀ line ∈ ls, line ∈ allLines) → ∀ li pos cnt,
      findMatchesGo allLines search ls li pos cnt = [] := by
  intro ls
  induction ls with
  | nil => intro _ li pos cnt; rw [findMatchesGo]
  | cons line rest ih =>
    intro hsub li pos cnt
    rw [findMatchesGo]
    have h1 : findMatchesLine line search = [] :=
      findMatchesLine_nil_of_not_contains
        (hall line (hsub line (List.mem_cons_self _ _)))
    simp only [h1, List.enum_nil, List.map_nil, List.length_nil, List.nil_append]
    exact ih (fun l hl => hsub l (List.mem_cons_of_mem _ hl)) (li + 1)
      (pos + line.length + 1) (cnt + 0)

theorem findMatches_nil_of_not_contains {content search : Str}
    (h : containsStr content search = false) : findMatches content search = [] := by
  unfold findMatches
  refine findMatchesGo_nil ?_ (splitNl content) (fun l hl => hl) 0 0 0
  intro line hline
  by_cases hc : containsStr line search = true
  · rw [containsStr_line_of_mem hline hc] at h
    exact Bool.noConfusion h
  · simpa using hc

/-! Lemmas about the batch loop's change accounting. -/

theorem applyReplaceTail_cases {content old new : Str} {ra : Bool} {c' : Str} {d : Nat}
    {o : OpOutcome} (h : applyReplaceTail content old new ra = (c', d, o)) :
    (d = 0 → c' = content ∧ o = .noMatches) ∧ (isFailureOutcome o = true → d = 0) := by
  by_cases hc : containsStr content old = true
  · cases ra with
    | true =>
      have hpos := countOccurrences_pos hc
      simp only [applyReplaceTail, hc, if_true, Prod.mk.injEq] at h
      obtain ⟨h1, h2, h3⟩ := h
      subst h1; subst h2; subst h3
      exact ⟨fun hd => absurd hd (by omega), fun ho => by simp [isFailureOutcome] at ho⟩
    | false =>
      simp only [applyReplaceTail, hc, if_true, Bool.false_eq_true, if_false,
        Prod.mk.injEq] at h
      obtain ⟨h1, h2, h3⟩ := h
      subst h1; subst h2; subst h3
      exact ⟨fun hd => absurd hd (by omega), fun ho => by simp [isFailureOutcome] at ho⟩
  · have hc' : containsStr content old = false := by simpa using hc
    simp only [applyReplaceTail, hc', Bool.false_eq_true, if_false, Prod.mk.injEq] at h
    obtain ⟨h1, h2, h3⟩ := h
    subst h1; subst h2; subst h3
    exact ⟨fun _ => ⟨rfl, rfl⟩, fun _ => rfl⟩

theorem applyReplaceOp_cases {content old new : Str} {ra : Bool} {c' : Str} {d : Nat}
    {o : OpOutcome} (h : applyReplaceOp content old new ra = (c', d, o)) :
    (d = 0 → c' = content ∧ isFailureOutcome o = true) ∧
    (isFailureOutcome o = true → d = 0) := by
  simp only [applyReplaceOp] at h
  cases hidx : (splitNl content).findIdx? (fun l => l == normalizeLineEndings old) with
  | none =>
    simp only [hidx] at h
    obtain ⟨h1, h2⟩ := applyReplaceTail_cases h
    exact ⟨fun hd => ⟨(h1 hd).1, by rw [(h1 hd).2]; rfl⟩, h2⟩
  | some li =>
    simp only [hidx] at h
    by_cases hnew : normalizeLineEndings new = []
    · rw [if_pos hnew] at h
      simp only [Prod.mk.injEq] at h
      obtain ⟨h1, h2, h3⟩ := h
      subst h1; subst h2; subst h3
      exact ⟨fun hd => absurd hd (by omega), fun ho => by simp [isFailureOutcome] at ho⟩
    · rw [if_neg hnew] at h
      obtain ⟨h1, h2⟩ := applyReplaceTail_cases h
      exact ⟨fun hd => ⟨(h1 hd).1, by rw [(h1 hd).2]; rfl⟩, h2⟩

theorem applyInsertOp_cases {content : Str} {ln : Int} {ic : Str} {c' : Str} {d : Nat}
    {o : OpOutcome} (h : applyInsertOp content ln ic = (c', d, o)) :
    (d = 0 → c' = content ∧ isFailureOutcome o = true) ∧
    (isFailureOutcome o = true → d = 0) := by
  simp only [applyInsertOp] at h
  by_cases hrange : (ln < 1 ∨ ln > ((splitNl content).length : Int) + 1)
  · rw [if_pos hrange] at h
    simp only [Prod.mk.injEq] at h
    obtain ⟨h1, h2, h3⟩ := h
    subst h1; subst h2; subst h3
    exact ⟨fun _ => ⟨rfl, rfl⟩, fun _ => rfl⟩
  · rw [if_neg hrange] at h
    simp only [Prod.mk.injEq] at h
    obtain ⟨h1, h2, h3⟩ := h
    subst h1; subst h2; subst h3
    exact ⟨fun hd => absurd hd (by omega), fun ho => by simp [isFailureOutcome] at ho⟩

theorem applyEditOp_cases {content : Str} {e : EditOp} {c' : Str} {d : Nat}
    {o : OpOutcome} (h : applyEditOp content e = (c', d, o)) :
    (d = 0 → c' = content ∧ isFailureOutcome o = true) ∧
    (isFailureOutcome o = true → d = 0) := by
  simp only [applyEditOp] at h
  by_cases h1 : (e.oldString.isSome ∧ e.newString.isSome : Prop)
  · by_cases h2 : (e.lineNumber.isSome ∧ e.content.isSome : Prop)
    · rw [if_neg (by simp [h1]), if_pos (by exact ⟨h1, h2⟩)] at h
      simp only [Prod.mk.injEq] at h
      obtain ⟨hh1, hh2, hh3⟩ := h
      subst hh1; subst hh2; subst hh3
      exact ⟨fun _ => ⟨rfl, rfl⟩, fun _ => rfl⟩
    · rw [if_neg (by simp [h1]), if_neg (by simp [h2])] at h
      cases ho : e.oldString with
      | none => rw [ho] at h1; simp at h1
      | some ov =>
        cases hn : e.newString with
        | none => rw [hn] at h1; simp at h1
        | some nv =>
          rw [ho, hn] at h
          exact applyReplaceOp_cases h
  · by_cases h2 : (e.lineNumber.isSome ∧ e.content.isSome : Prop)
    · rw [if_neg (by simp [h2]), if_neg (by simp [h1])] at h
      cases ho : e.oldString with
      | some ov =>
        cases hn : e.newString with
        | some nv => exact absurd ⟨by rw [ho]; rfl, by rw [hn]; rfl⟩ h1
        | none =>
          rw [ho, hn] at h
          cases hl : e.lineNumber with
          | none => rw [hl] at h2; simp at h2
          | some ln =>
            cases hcv : e.content with
            | none => rw [hcv] at h2; simp at h2
            | some cv =>
              rw [hl, hcv] at h
              exact applyInsertOp_cases h
      | none =>
        rw [ho] at h
        cases hl : e.lineNumber with
        | none => rw [hl] at h2; simp at h2
        | some ln =>
          cases hcv : e.content with
          | none => rw [hcv] at h2; simp at h2
          | some cv =>
            rw [hl, hcv] at h
            exact applyInsertOp_cases h
    · rw [if_pos (by constructor <;> [simp [h1]; simp [h2]])] at h
      simp only [Prod.mk.injEq] at h
      obtain ⟨hh1, hh2, hh3⟩ := h
      subst hh1; subst hh2; subst hh3
      exact ⟨fun _ => ⟨rfl, rfl⟩, fun _ => rfl⟩

theorem batchStep_foldl_decomp (edits : List EditOp) :
    ∀ content t outs,
      edits.foldl batchStep (content, t, outs) =
        ((edits.foldl batchStep (content, 0, [])).1,
         t + (edits.foldl batchStep (content, 0, [])).2.1,
         outs ++ (edits.foldl batchStep (content, 0, [])).2.2) := by
  induction edits with
  | nil => intro content t outs; simp [List.foldl]
  | cons e rest ih =>
    intro content t outs
    rcases happ : applyEditOp content e with ⟨c1, d1, o1⟩
    simp only [List.foldl_cons, batchStep, happ]
    rw [ih c1 (t + d1) (outs ++ [o1]), ih c1 (0 + d1) ([] ++ [o1])]
    simp [Nat.add_assoc, List.append_assoc]

theorem batchFold_zero (edits : List EditOp) :
    ∀ content,
      ((edits.foldl batchStep (content, 0, [])).2.1 = 0 →
        (edits.foldl batchStep (content, 0, [])).1 = content ∧
        ∀ o ∈ (edits.foldl batchStep (content, 0, [])).2.2, isFailureOutcome o = true) ∧
      ((∀ o ∈ (edits.foldl batchStep (content, 0, [])).2.2, isFailureOutcome o = true) →
        (edits.foldl batchStep (content, 0, [])).2.1 = 0) := by
  induction edits with
  | nil => intro content; simp [List.foldl]
  | cons e rest ih =>
    intro content
    rcases happ : applyEditOp content e with ⟨c1, d1, o1⟩
    have hdecomp := batchStep_foldl_decomp rest c1 (0 + d1) ([] ++ [o1])
    have hfold : (e :: rest).foldl batchStep (content, 0, []) =
        ((rest.foldl batchStep (c1, 0, [])).1,
         0 + d1 + (rest.foldl batchStep (c1, 0, [])).2.1,
         [] ++ [o1] ++ (rest.foldl batchStep (c1, 0, [])).2.2) := by
      simp only [List.foldl_cons, batchStep, happ]
      exact hdecomp
    rw [hfold]
    obtain ⟨ihz, ihf⟩ := ih c1
    obtain ⟨hcz, hcf⟩ := applyEditOp_cases happ
    constructor
    · intro hz
      simp only at hz
      have hd1 : d1 = 0 := by omega
      have hq : (rest.foldl batchStep (c1, 0, [])).2.1 = 0 := by omega
      obtain ⟨he1, he2⟩ := hcz hd1
      subst he1
      obtain ⟨hr1, hr2⟩ := ihz hq
      refine ⟨by simpa using hr1, ?_⟩
      intro o ho
      simp only [List.nil_append, List.mem_append, List.mem_singleton] at ho
      rcases ho with rfl | ho
      · exact he2
      · exact hr2 o ho
    · intro hall
      simp only [List.nil_append, List.mem_append, List.mem_singleton] at hall
      have ho1 : isFailureOutcome o1 = true := hall o1 (Or.inl rfl)
      have hd1 : d1 = 0 := hcf ho1
      have hq : (rest.foldl batchStep (c1, 0, [])).2.1 = 0 :=
        ihf (fun o ho => hall o (Or.inr ho))
      simp only
      omega

/-! Lemmas about session resolution. -/

theorem mem_insertDesc {x y : Int} {l : List Int} :
    y ∈ insertDesc x l ↔ y = x ∨ y ∈ l := by
  induction l with
  | nil => simp [insertDesc]
  | cons h t ih =>
    by_cases hx : x ≥ h
    · simp [insertDesc, hx]
    · simp only [insertDesc, if_neg hx, List.mem_cons, ih]
      tauto

theorem mem_sortDesc {x : Int} {l : List Int} : x ∈ sortDesc l ↔ x ∈ l := by
  induction l with
  | nil => simp [sortDesc]
  | cons h t ih =>
    show x ∈ insertDesc h (sortDesc t) ↔ _
    rw [mem_insertDesc]
    simp [ih]

theorem sortDesc_nil_iff {l : List Int} : sortDesc l = [] ↔ l = [] := by
  cases l with
  | nil => simp [sortDesc]
  | cons h t =>
    constructor
    · intro hcontra
      have : h ∈ sortDesc (h :: t) := mem_sortDesc.mpr (List.mem_cons_self _ _)
      rw [hcontra] at this
      exact absurd this (List.not_mem_nil h)
    · intro hcontra; exact List.noConfusion hcontra

theorem applySelection_preserves_length (old new : Str) :
    ∀ idxs ms content cnt,
      (applySelection old new idxs ms content cnt).1.length = ms.length := by
  intro idxs
  induction idxs with
  | nil => intro ms content cnt; rfl
  | cons idx rest ih =>
    intro ms content cnt
    by_cases hbad : idx < 0 ∨ idx ≥ (ms.length : Int)
    · simp only [applySelection, if_pos hbad]
    · simp only [applySelection, if_neg hbad]
      cases hget : ms.get? idx.toNat with
      | none => exact ih ms content cnt
      | some m =>
        rw [ih]
        exact List.length_map _ _

theorem applySelection_invalid (old new : Str) :
    ∀ idxs ms content cnt, (∃ i ∈ idxs, i < 0 ∨ (ms.length : Int) ≤ i) →
      (applySelection old new idxs ms content cnt).2.2.2 = some .invalidMatchIndex := by
  intro idxs
  induction idxs with
  | nil =>
    intro ms content cnt hbad
    obtain ⟨i, hi, _⟩ := hbad
    exact absurd hi (List.not_mem_nil i)
  | cons idx rest ih =>
    intro ms content cnt hbad
    by_cases hcond : idx < 0 ∨ idx ≥ (ms.length : Int)
    · simp only [applySelection, if_pos hcond]
    · simp only [applySelection, if_neg hcond]
      push_neg at hcond
      obtain ⟨i, hi, hiv⟩ := hbad
      rcases List.mem_cons.mp hi with rfl | himem
      · exact absurd hiv (by omega)
      · cases hget : ms.get? idx.toNat with
        | none =>
          exact ih ms content cnt ⟨i, himem, hiv⟩
        | some m =>
          refine ih _ _ _ ⟨i, himem, ?_⟩
          rw [List.length_map]
          exact hiv

theorem handleSessionReplace_unknown {st : State} {f sid : Str}
    {mi : Option (List Int)} {ra : Bool} (h : alookup st.sessions sid = none) :
    handleSessionReplace st f sid mi ra = (st, .error .invalidSession) := by
  simp [handleSessionReplace, h]

theorem handleSessionReplace_invalid_sel {st : State} {f sid : Str} {sd : SessionData}
    {mi : List Int} (hsd : alookup st.sessions sid = some sd) (hf : sd.filePath = f)
    {cc : Str} (hfs : alookup st.fs f = some cc)
    (hbad : ∃ i ∈ mi, i < 0 ∨ (sd.matchList.length : Int) ≤ i) (hne : mi ≠ []) :
    handleSessionReplace st f sid (some mi) false =
      (State.mk st.fs st.dirs st.readFiles
        (aupdate st.sessions sid
          (SessionData.mk sd.sessionId sd.filePath sd.oldString sd.newString
            (applySelection sd.oldString sd.newString (sortDesc mi)
              sd.matchList cc 0).1 sd.timestamp))
        st.writes,
       .error .invalidMatchIndex) := by
  have hlen : mi.length > 0 := by
    cases mi with
    | nil => exact absurd rfl hne
    | cons _ _ => simp
  have hbad' : ∃ i ∈ sortDesc mi, i < 0 ∨ (sd.matchList.length : Int) ≤ i := by
    obtain ⟨i, hi, hiv⟩ := hbad
    exact ⟨i, mem_sortDesc.mpr hi, hiv⟩
  have hsel := applySelection_invalid sd.oldString sd.newString (sortDesc mi)
    sd.matchList cc 0 hbad'
  simp only [handleSessionReplace, hsd, hf, ne_eq, not_true_eq_false, Bool.false_eq_true,
    if_false, hfs, hlen, if_true, hsel]

theorem handleSessionReplace_consumed {st : State} {f sid : Str}
    {mi : Option (List Int)} {ra : Bool} {n : Nat}
    (h : (handleSessionReplace st f sid mi ra).2 = .ok n) :
    (handleSessionReplace st f sid mi ra).1.sessions = aremove st.sessions sid := by
  cases hsd : alookup st.sessions sid with
  | none => rw [handleSessionReplace_unknown hsd] at h; exact Except.noConfusion h
  | some sd =>
    by_cases hf : sd.filePath ≠ f
    · simp only [handleSessionReplace, hsd, if_pos hf] at h ⊢
      exact Except.noConfusion h
    · cases hfs : alookup st.fs f with
      | none =>
        simp only [handleSessionReplace, hsd, if_neg hf, hfs] at h ⊢
        exact Except.noConfusion h
      | some cc =>
        cases ra with
        | true => simp [handleSessionReplace, hsd, hf, hfs, writeFileS]
        | false =>
          cases mi with
          | none =>
            simp only [handleSessionReplace, hsd, if_neg hf, hfs, Bool.false_eq_true,
              if_false] at h ⊢
            exact Except.noConfusion h
          | some l =>
            by_cases hlen : l.length > 0
            · cases hsel : (applySelection sd.oldString sd.newString (sortDesc l)
                  sd.matchList cc 0).2.2.2 with
              | some e =>
                simp only [handleSessionReplace, hsd, if_neg hf, hfs, Bool.false_eq_true,
                  if_false, hlen, if_true, hsel] at h ⊢
                exact Except.noConfusion h
              | none =>
                simp [handleSessionReplace, hsd, hf, hfs, hlen, hsel, writeFileS]
            · simp only [handleSessionReplace, hsd, if_neg hf, hfs, Bool.false_eq_true,
                if_false, hlen] at h ⊢
              exact Except.noConfusion h

theorem handleSessionReplace_timestamp_irrelevant {st : State} {sid : Str}
    {sd : SessionData} (t : Int) (f : Str) (mi : Option (List Int)) (ra : Bool)
    (hsd : alookup st.sessions sid = some sd) :
    ((handleSessionReplace
        { st with sessions := aupdate st.sessions sid { sd with timestamp := t } }
        f sid mi ra).2 = (handleSessionReplace st f sid mi ra).2) ∧
    (∀ n, (handleSessionReplace st f sid mi ra).2 = .ok n →
      (handleSessionReplace
          { st with sessions := aupdate st.sessions sid { sd with timestamp := t } }
          f sid mi ra).1 = (handleSessionReplace st f sid mi ra).1) := by
  have hsd' : alookup
      ({ st with sessions := aupdate st.sessions sid { sd with timestamp := t } } : State).sessions
      sid = some { sd with timestamp := t } := alookup_aupdate_self _ _ _
  by_cases hf : sd.filePath ≠ f
  · simp only [handleSessionReplace, hsd, hsd', if_pos hf]
    exact ⟨by trivial, fun n hn => Except.noConfusion hn⟩
  · cases hfs : alookup st.fs f with
    | none =>
      simp only [handleSessionReplace, hsd, hsd', if_neg hf, hfs]
      exact ⟨by trivial, fun n hn => Except.noConfusion hn⟩
    | some cc =>
      cases ra with
      | true =>
        constructor
        · simp [handleSessionReplace, hsd, hsd', hf, hfs, writeFileS]
        · intro n hn
          simp [handleSessionReplace, hsd, hsd', hf, hfs, writeFileS,
            aremove_aupdate_self]
      | false =>
        cases mi with
        | none =>
          simp only [handleSessionReplace, hsd, hsd', if_neg hf, hfs,
            Bool.false_eq_true, if_false]
          exact ⟨by trivial, fun n hn => Except.noConfusion hn⟩
        | some l =>
          by_cases hlen : l.length > 0
          · cases hsel : (applySelection sd.oldString sd.newString (sortDesc l)
                sd.matchList cc 0).2.2.2 with
            | some e =>
              constructor
              · simp [handleSessionReplace, hsd, hsd', hf, hfs, hlen, hsel]
              · intro n hn
                simp only [handleSessionReplace, hsd, if_neg hf, hfs,
                  Bool.false_eq_true, if_false, hlen, if_true, hsel] at hn
                exact Except.noConfusion hn
            | none =>
              constructor
              · simp [handleSessionReplace, hsd, hsd', hf, hfs, hlen, hsel, writeFileS]
              · intro n hn
                simp [handleSessionReplace, hsd, hsd', hf, hfs, hlen, hsel, writeFileS,
                  aremove_aupdate_self]
          · simp only [handleSessionReplace, hsd, hsd', if_neg hf, hfs,
              Bool.false_eq_true, if_false, hlen]
            exact ⟨by trivial, fun n hn => Except.noConfusion hn⟩

/-! Operation-level lemmas: bounds failures and gate behavior. -/

theorem validateFileAccess_oob {cwd : Str} {st : State} {p : Str} {rr : Bool}
    (h : cwd.isPrefixOf p = false) :
    validateFileAccess cwd st p rr = .error .outOfBounds := by
  simp [validateFileAccess, checkDirectoryBounds, h]

theorem writeExecute_oob {cwd : Str} {st : State} {p content : Str} {cpd : Bool}
    (h : cwd.isPrefixOf p = false) :
    writeExecute cwd st p content cpd = .error .outOfBounds := by
  simp [writeExecute, validateFileAccess_oob h]

theorem handleBatchEdit_oob {cwd : Str} {st : State} {p : Str} {edits : List EditOp}
    (h : cwd.isPrefixOf p = false) :
    handleBatchEdit cwd st p edits = .error .outOfBounds := by
  simp [handleBatchEdit, validateFileAccess_oob h]

theorem editToolExecute_oob {cwd : Str} {st : State} {p : Str} {edits : List EditOp}
    (hne : edits ≠ []) (h : cwd.isPrefixOf p = false) :
    editToolExecute cwd st p edits = .error .outOfBounds := by
  have : edits.isEmpty = false := by
    cases edits with
    | nil => exact absurd rfl hne
    | cons _ _ => rfl
  simp [editToolExecute, this, handleBatchEdit_oob h]

theorem moveExecute_oob {cwd : Str} {ignores : Str → Bool} {st : State}
    {fromPath toPath : Str} {ow : Bool}
    (h : cwd.isPrefixOf fromPath = false ∨ cwd.isPrefixOf toPath = false) :
    moveExecute cwd ignores st fromPath toPath ow = .error .outOfBounds := by
  rcases h with h | h
  · simp [moveExecute, validateCurrentDirectoryBounds, h]
  · by_cases hfrom : cwd.isPrefixOf fromPath = true
    · simp [moveExecute, validateCurrentDirectoryBounds, hfrom, h]
    · have hfrom' : cwd.isPrefixOf fromPath = false := by
        cases hb : cwd.isPrefixOf fromPath
        · rfl
        · exact absurd hb hfrom
      simp [moveExecute, validateCurrentDirectoryBounds, hfrom']

theorem copyExecute_oob {cwd : Str} {ignores : Str → Bool} {st : State}
    {fromPath toPath : Str} {ow : Bool}
    (h : cwd.isPrefixOf fromPath = false ∨ cwd.isPrefixOf toPath = false) :
    copyExecute cwd ignores st fromPath toPath ow = .error .outOfBounds := by
  rcases h with h | h
  · simp [copyExecute, validateCurrentDirectoryBounds, h]
  · by_cases hfrom : cwd.isPrefixOf fromPath = true
    · simp [copyExecute, validateCurrentDirectoryBounds, hfrom, h]
    · have hfrom' : cwd.isPrefixOf fromPath = false := by
        cases hb : cwd.isPrefixOf fromPath
        · rfl
        · exact absurd hb hfrom
      simp [copyExecute, validateCurrentDirectoryBounds, hfrom']

theorem writeExecute_requires_read {cwd : Str} {st : State} {p content : Str} {cpd : Bool}
    (hpre : cwd.isPrefixOf p = true) (hdang : isDangerousFile p = false)
    (hex : (alookup st.fs p).isSome = true) (hread : p ∉ st.readFiles) :
    writeExecute cwd st p content cpd = .error .requiresPriorRead := by
  have hnr : isFileRead st p = false := by simp [isFileRead, hread]
  simp [writeExecute, validateFileAccess, checkDirectoryBounds, hpre, hdang, hex, hnr]

theorem writeExecute_success {cwd : Str} {st : State} {p content : Str} {cpd : Bool}
    (hpre : cwd.isPrefixOf p = true) (hdang : isDangerousFile p = false)
    (hgate : (alookup st.fs p).isSome = true → isFileRead st p = true)
    (hsize : content.length ≤ MAX_FILE_SIZE) (hdir : dirnameStr p ∈ st.dirs) :
    writeExecute cwd st p content cpd =
      .ok (markFileAsRead (writeFileS st p content) p) := by
  have hnogate : ¬ ((alookup st.fs p).isSome = true ∧ ¬ isFileRead st p = true) := by
    rintro ⟨h1, h2⟩
    exact h2 (hgate h1)
  have h1 : validateContentSize content = .ok () := by
    unfold validateContentSize
    rw [if_neg (by omega)]
  have h2 : ensureParentDirectory st p cpd = .ok st := by
    unfold ensureParentDirectory
    rw [if_pos hdir]
  simp only [writeExecute, validateFileAccess, checkDirectoryBounds, hpre, if_true,
    hdang, Bool.false_eq_true, if_false, h1, h2]
  simp only [eq_false hnogate, if_false]
  simp

theorem safeReadFile_ok {cwd : Str} {st : State} {p content : Str}
    (h : safeReadFile cwd st p = .ok content) :
    cwd.isPrefixOf p = true ∧ alookup st.fs p = some content ∧
      isDangerousFile p = false ∧ content.length ≤ MAX_FILE_SIZE := by
  unfold safeReadFile checkDirectoryBounds at h
  by_cases hpre : cwd.isPrefixOf p = true
  · rw [if_pos hpre] at h
    simp only at h
    cases hfs : alookup st.fs p with
    | none => rw [hfs] at h; exact Except.noConfusion h
    | some c =>
      rw [hfs] at h
      simp only at h
      by_cases hbig : c.length > MAX_FILE_SIZE
      · rw [if_pos hbig] at h; exact Except.noConfusion h
      · rw [if_neg hbig] at h
        by_cases hdang : isDangerousFile p = true
        · rw [if_pos hdang] at h; exact Except.noConfusion h
        · rw [if_neg hdang] at h
          have hc : c = content := by
            injection h
          subst hc
          exact ⟨hpre, rfl, by simpa using hdang, by omega⟩
  · have hpre' : cwd.isPrefixOf p = false := by
      cases hb : cwd.isPrefixOf p
      · rfl
      · exact absurd hb hpre
    rw [hpre'] at h
    simp only [Bool.false_eq_true, if_false] at h
    exact Except.noConfusion h

theorem readFileLines_ok {cwd : Str} {st : State} {p : Str} {sl : Int}
    {el : Option Int} {ml : Int} {sc : Str} {tl : Nat}
    (h : readFileLines cwd st p sl el ml = .ok (sc, tl)) :
    ∃ content, safeReadFile cwd st p = .ok content := by
  unfold readFileLines at h
  cases hsr : safeReadFile cwd st p with
  | error e => rw [hsr] at h; exact Except.noConfusion h
  | ok content => exact ⟨content, rfl⟩

theorem readExecute_ok {cwd : Str} {st : State} {p : Str} {sl el ml : Option Int}
    {st1 : State} {out : Str} (h : readExecute cwd st p sl el ml = .ok (st1, out)) :
    st1 = markFileAsRead st p ∧ cwd.isPrefixOf p = true ∧
      isDangerousFile p = false ∧ (alookup st.fs p).isSome = true := by
  unfold readExecute at h
  cases hrl : readFileLines cwd st p (sl.getD 1) el (ml.getD 20) with
  | error e => simp [hrl] at h
  | ok pr =>
    obtain ⟨selectedContent, totalLines⟩ := pr
    simp only [hrl] at h
    obtain ⟨content, hsr⟩ := readFileLines_ok hrl
    obtain ⟨hpre, hfs, hdang, _⟩ := safeReadFile_ok hsr
    split at h
    · exact Except.noConfusion h
    · have h1 : st1 = markFileAsRead st p := by
        have := congrArg (fun r => match r with | .ok (a, _) => a | .error _ => st1) h
        simpa using this.symm
      exact ⟨h1, hpre, hdang, by rw [hfs]; rfl⟩

theorem editToolExecute_ok_exists {cwd : Str} {st : State} {p : Str} {edits : List EditOp}
    {raw : Str} (hne : edits ≠ []) (hpre : cwd.isPrefixOf p = true)
    (hdang : isDangerousFile p = false) (hread : isFileRead st p = true)
    (hraw : alookup st.fs p = some raw) :
    ∃ r, editToolExecute cwd st p edits = .ok r := by
  have hie : edits.isEmpty = false := by
    cases edits with
    | nil => exact absurd rfl hne
    | cons _ _ => rfl
  cases hres : editToolExecute cwd st p edits with
  | ok r => exact ⟨r, rfl⟩
  | error e =>
    simp only [editToolExecute, hie, Bool.false_eq_true, if_false, handleBatchEdit,
      validateFileAccess, checkDirectoryBounds, hpre, if_true, hdang, hread, not_true,
      and_false, hraw] at hres
    exact Except.noConfusion hres

theorem replaceFirst_spec {s old : Str} (new : Str) (hc : containsStr s old = true) :
    ∃ i, indexOfStr s old = some i ∧
      replaceFirst s old new = s.take i ++ new ++ s.drop (i + old.length) ∧
      occursAt s old i = true ∧ ∀ r, r < i → occursAt s old r = false := by
  unfold containsStr at hc
  rw [Option.isSome_iff_exists] at hc
  obtain ⟨i, hi⟩ := hc
  obtain ⟨_, hocc, hleast⟩ := indexOfStr_bounds hi
  exact ⟨i, hi, by simp [replaceFirst, hi], hocc, hleast⟩

theorem applyReplaceOp_delete {content old new : Str} {li : Nat} (ra : Bool)
    (hfind : (splitNl content).findIdx? (fun l => l == normalizeLineEndings old) = some li)
    (hnew : normalizeLineEndings new = []) :
    applyReplaceOp content old new ra =
      (joinNl ((splitNl content).eraseIdx li), 1, .deletedLine (li + 1)) := by
  simp [applyReplaceOp, hfind, hnew]

theorem tryFlexibleMatch_delete {content old new : Str} {li : Nat}
    (hfind : (splitNl content).findIdx? (fun l => l == old) = some li)
    (hnew : new = []) :
    tryFlexibleMatch content old new =
      some (joinNl ((splitNl content).eraseIdx li), .deletedLine) := by
  simp [tryFlexibleMatch, hfind, hnew]

theorem applyReplaceOp_replaceAll_spec {content old new : Str}
    (hdel : ¬ (((splitNl content).findIdx?
        (fun l => l == normalizeLineEndings old)).isSome ∧ normalizeLineEndings new = []))
    (hc : containsStr content (normalizeLineEndings old) = true)
    (hold : normalizeLineEndings old ≠ []) :
    applyReplaceOp content old new true =
      (joinSep (normalizeLineEndings new) (splitOnStr content (normalizeLineEndings old)),
       (splitOnStr content (normalizeLineEndings old)).length - 1,
       .replacedAll ((splitOnStr content (normalizeLineEndings old)).length - 1)) ∧
    content = joinSep (normalizeLineEndings old)
      (splitOnStr content (normalizeLineEndings old)) ∧
    ∀ piece ∈ splitOnStr content (normalizeLineEndings old),
      containsStr piece (normalizeLineEndings old) = false := by
  obtain ⟨hrecon, hrepl, hcount, hfree⟩ :=
    splitOnStr_spec content (normalizeLineEndings old) (normalizeLineEndings new) hold
  refine ⟨?_, hrecon.symm, hfree⟩
  have htail : applyReplaceTail content (normalizeLineEndings old)
      (normalizeLineEndings new) true =
      (replaceAllStr content (normalizeLineEndings old) (normalizeLineEndings new),
       countOccurrences content (normalizeLineEndings old),
       .replacedAll (countOccurrences content (normalizeLineEndings old))) := by
    simp [applyReplaceTail, hc]
  cases hfind : (splitNl content).findIdx? (fun l => l == normalizeLineEndings old) with
  | none =>
    simp only [applyReplaceOp, hfind, htail, hrepl, hcount]
  | some li =>
    have hnew : ¬ normalizeLineEndings new = [] := by
      intro hcontra
      exact hdel ⟨by simp [hfind], hcontra⟩
    simp only [applyReplaceOp, hfind, if_neg hnew, htail, hrepl, hcount]

theorem handleBatchEdit_frame {cwd : Str} {st : State} {p : Str} {edits : List EditOp}
    {r : BatchResult} (h : handleBatchEdit cwd st p edits = .ok r) :
    (r.totalChanges = 0 → r.state = st ∧ ∀ o ∈ r.outcomes, isFailureOutcome o = true) ∧
    ((∀ o ∈ r.outcomes, isFailureOutcome o = true) → r.totalChanges = 0) ∧
    (r.totalChanges > 0 →
      r.state.fs = aupdate st.fs p r.finalContent ∧ r.state.writes = st.writes + 1) := by
  cases hva : validateFileAccess cwd st p true with
  | error e => simp [handleBatchEdit, hva] at h
  | ok u =>
    cases u
    cases hfs : alookup st.fs p with
    | none => simp [handleBatchEdit, hva, hfs] at h
    | some raw =>
      simp only [handleBatchEdit, hva, hfs, Except.ok.injEq] at h
      obtain ⟨rst, rt, routs, rfc⟩ := r
      simp only [BatchResult.mk.injEq] at h
      obtain ⟨h1, h2, h3, h4⟩ := h
      subst h2; subst h3; subst h4
      obtain ⟨hz, hf⟩ := batchFold_zero edits (normalizeLineEndings raw)
      simp only
      refine ⟨?_, ?_, ?_⟩
      · intro ht
        rw [← h1]
        rw [if_neg (by omega)]
        exact ⟨rfl, (hz ht).2⟩
      · exact hf
      · intro ht
        rw [← h1, if_pos ht]
        exact ⟨rfl, rfl⟩

theorem handleReplace_no_sessions (st : State) (f o n : Str) (mi : Option (List Int))
    (ra : Bool) (now : Int) (fid : Str) :
    ((handleReplace st f o n mi ra none now fid).1.sessions = st.sessions) ∧
    (∀ out, (handleReplace st f o n mi ra none now fid).2 = .ok out →
      ∃ k, out = ReplaceOutcome.flexWrite k) := by
  by_cases hsame : o = n
  · simp [handleReplace, hsame]
  · cases hfs : alookup st.fs f with
    | none => simp [handleReplace, hsame, hfs]
    | some raw =>
      by_cases hbin : isBinaryFileStr raw = true
      · simp [handleReplace, hsame, hfs, hbin]
      · have hbin' : isBinaryFileStr raw = false := by
          cases hb : isBinaryFileStr raw
          · rfl
          · exact absurd hb hbin
        by_cases hbig : (normalizeLineEndings raw).length > MAX_FILE_SIZE
        · simp [handleReplace, hsame, hfs, hbin', hbig]
        · cases hflex : tryFlexibleMatch (normalizeLineEndings raw)
              (normalizeLineEndings o) (normalizeLineEndings n) with
          | some fr =>
            constructor
            · simp [handleReplace, hsame, hfs, hbin', hbig, hflex, writeFileS]
            · intro out hout
              simp only [handleReplace, if_neg hsame, hfs, hbin', Bool.false_eq_true,
                if_false, if_neg hbig, hflex, Except.ok.injEq] at hout
              exact ⟨fr.2, hout.symm⟩
          | none =>
            have hnc := tryFlexibleMatch_none_contains hflex
            have hms := findMatches_nil_of_not_contains hnc
            simp [handleReplace, hsame, hfs, hbin', hbig, hflex, hms]

theorem handleBatchEdit_sessions {cwd : Str} {st : State} {p : Str} {edits : List EditOp}
    {r : BatchResult} (h : handleBatchEdit cwd st p edits = .ok r) :
    r.state.sessions = st.sessions ∧ r.state.readFiles = st.readFiles := by
  cases hva : validateFileAccess cwd st p true with
  | error e => simp [handleBatchEdit, hva] at h
  | ok u =>
    cases u
    cases hfs : alookup st.fs p with
    | none => simp [handleBatchEdit, hva, hfs] at h
    | some raw =>
      simp only [handleBatchEdit, hva, hfs, Except.ok.injEq] at h
      obtain ⟨rst, rt, routs, rfc⟩ := r
      simp only [BatchResult.mk.injEq] at h
      obtain ⟨h1, _, _, _⟩ := h
      rw [← h1]
      by_cases hw : (edits.foldl batchStep (normalizeLineEndings raw, 0, [])).2.1 > 0
      · rw [if_pos hw]; exact ⟨rfl, rfl⟩
      · rw [if_neg hw]; exact ⟨rfl, rfl⟩

theorem editToolExecute_sessions {cwd : Str} {st : State} {p : Str} {edits : List EditOp}
    {r : BatchResult} (h : editToolExecute cwd st p edits = .ok r) :
    r.state.sessions = st.sessions := by
  unfold editToolExecute at h
  by_cases hie : edits.isEmpty = true
  · rw [if_pos hie] at h; exact Except.noConfusion h
  · rw [if_neg hie] at h
    exact (handleBatchEdit_sessions h).1

theorem writeExecute_ok_inv {cwd : Str} {st : State} {p content : Str} {cpd : Bool}
    {st2 : State} (h : writeExecute cwd st p content cpd = .ok st2) :
    isFileRead st2 p = true ∧ alookup st2.fs p = some content := by
  unfold writeExecute at h
  cases hva : validateFileAccess cwd st p false with
  | error e => rw [hva] at h; exact Except.noConfusion h
  | ok u =>
    cases u
    rw [hva] at h
    simp only at h
    split at h
    · exact Except.noConfusion h
    · cases hvc : validateContentSize content with
      | error e => rw [hvc] at h; exact Except.noConfusion h
      | ok u2 =>
        cases u2
        rw [hvc] at h
        simp only at h
        cases hpd : ensureParentDirectory st p cpd with
        | error e => rw [hpd] at h; exact Except.noConfusion h
        | ok st1 =>
          rw [hpd] at h
          simp only [Except.ok.injEq] at h
          subst h
          constructor
          · simp [isFileRead, mem_markFileAsRead]
          · rw [markFileAsRead_fs]
            exact alookup_aupdate_self _ _ _

theorem applyReplaceOp_exact_single {content old new : Str}
    (hdel : ¬ (((splitNl content).findIdx?
        (fun l => l == normalizeLineEndings old)).isSome ∧ normalizeLineEndings new = []))
    (hc : containsStr content (normalizeLineEndings old) = true) :
    applyReplaceOp content old new false =
      (replaceFirst content (normalizeLineEndings old) (normalizeLineEndings new), 1,
       .replaced (if containsStr (normalizeLineEndings old) (str "\n") then
          findMultilineMatch content (normalizeLineEndings old)
        else findLineNumber content (normalizeLineEndings old))) := by
  have htail : applyReplaceTail content (normalizeLineEndings old)
      (normalizeLineEndings new) false =
      (replaceFirst content (normalizeLineEndings old) (normalizeLineEndings new), 1,
       .replaced (if containsStr (normalizeLineEndings old) (str "\n") then
          findMultilineMatch content (normalizeLineEndings old)
        else findLineNumber content (normalizeLineEndings old))) := by
    simp [applyReplaceTail, hc]
  cases hfind : (splitNl content).findIdx? (fun l => l == normalizeLineEndings old) with
  | none => simp only [applyReplaceOp, hfind, htail]
  | some li =>
    have hnew : ¬ normalizeLineEndings new = [] := by
      intro hcontra
      exact hdel ⟨by simp [hfind], hcontra⟩
    simp only [applyReplaceOp, hfind, if_neg hnew, htail]

theorem applyReplaceOp_noMatches {content old new : Str} (ra : Bool)
    (hdel : ¬ (((splitNl content).findIdx?
        (fun l => l == normalizeLineEndings old)).isSome ∧ normalizeLineEndings new = []))
    (hnc : containsStr content (normalizeLineEndings old) = false) :
    applyReplaceOp content old new ra = (content, 0, .noMatches) := by
  have htail : applyReplaceTail content (normalizeLineEndings old)
      (normalizeLineEndings new) ra = (content, 0, .noMatches) := by
    simp [applyReplaceTail, hnc]
  cases hfind : (splitNl content).findIdx? (fun l => l == normalizeLineEndings old) with
  | none => simp only [applyReplaceOp, hfind, htail]
  | some li =>
    have hnew : ¬ normalizeLineEndings new = [] := by
      intro hcontra
      exact hdel ⟨by simp [hfind], hcontra⟩
    simp only [applyReplaceOp, hfind, if_neg hnew, htail]

/-! Sorting lemmas for the descending ordinal sort. -/

theorem insertDesc_perm (x : Int) (l : List Int) : List.Perm (insertDesc x l) (x :: l) := by
  induction l with
  | nil => simp [insertDesc]
  | cons y ys ih =>
    by_cases h : x ≥ y
    · simp [insertDesc, h]
    · simp only [insertDesc, if_neg h]
      exact (List.Perm.cons y ih).trans (List.Perm.swap x y ys)

theorem sortDesc_perm (l : List Int) : List.Perm (sortDesc l) l := by
  induction l with
  | nil => simp [sortDesc]
  | cons x xs ih =>
    show List.Perm (insertDesc x (sortDesc xs)) (x :: xs)
    exact (insertDesc_perm x (sortDesc xs)).trans (List.Perm.cons x ih)

theorem insertDesc_pairwise {x : Int} {l : List Int}
    (h : l.Pairwise (· ≥ ·)) : (insertDesc x l).Pairwise (· ≥ ·) := by
  induction l with
  | nil => simp [insertDesc]
  | cons y ys ih =>
    obtain ⟨hy, hys⟩ := List.pairwise_cons.mp h
    by_cases hx : x ≥ y
    · simp only [insertDesc, if_pos hx]
      rw [List.pairwise_cons]
      refine ⟨?_, h⟩
      intro b hb
      rcases List.mem_cons.mp hb with rfl | hmem
      · exact hx
      · exact le_trans (hy b hmem) hx
    · simp only [insertDesc, if_neg hx]
      rw [List.pairwise_cons]
      refine ⟨?_, ih hys⟩
      intro b hb
      have hb' : b ∈ x :: ys := (insertDesc_perm x ys).mem_iff.mp hb
      rcases List.mem_cons.mp hb' with rfl | hmem
      · omega
      · exact hy b hmem

theorem sortDesc_pairwise_ge (l : List Int) : (sortDesc l).Pairwise (· ≥ ·) := by
  induction l with
  | nil => simp [sortDesc]
  | cons x xs ih => exact insertDesc_pairwise ih

theorem sortDesc_pairwise_gt {l : List Int} (h : l.Nodup) :
    (sortDesc l).Pairwise (· > ·) := by
  have hge := sortDesc_pairwise_ge l
  have hne : (sortDesc l).Pairwise (· ≠ ·) := (sortDesc_perm l).nodup_iff.mpr h
  have := hge.and hne
  exact this.imp (fun hab => by omega)

theorem sortDesc_length (l : List Int) : (sortDesc l).length = l.length :=
  (sortDesc_perm l).length_eq


theorem applySelection_eq_selSplice (old new : Str) (ms : List MatchInfo)
    (hmono : ∀ (j k : Nat) (mj mk : MatchInfo), j ≤ k →
      ms.get? j = some mj → ms.get? k = some mk → mj.startPos ≤ mk.startPos) :
    ∀ (L : List Int) (ms' : List MatchInfo) (content : Str) (cnt : Nat),
      (∀ i ∈ L, 0 ≤ i ∧ i < (ms.length : Int)) →
      L.Pairwise (· > ·) →
      (∀ (j : Nat) (i : Int), i ∈ L → (j : Int) ≤ i → ms'.get? j = ms.get? j) →
      ms'.length = ms.length →
      (applySelection old new L ms' content cnt).2.1 = selSplice ms new L content ∧
      (applySelection old new L ms' content cnt).2.2.1 = cnt + L.length ∧
      (applySelection old new L ms' content cnt).2.2.2 = none := by
  intro L
  induction L with
  | nil =>
    intro ms' content cnt _ _ _ _
    exact ⟨rfl, by simp [applySelection], rfl⟩
  | cons i rest ih =>
    intro ms' content cnt hvalid hpair hagree hlen
    obtain ⟨hi0, hilt⟩ := hvalid i (List.mem_cons_self i rest)
    have hcond : ¬ (i < 0 ∨ i ≥ (ms'.length : Int)) := by
      rw [hlen]; omega
    have hagree_i : ms'.get? i.toNat = ms.get? i.toNat :=
      hagree i.toNat i (List.mem_cons_self i rest) (by omega)
    have hmsome : ∃ m, ms.get? i.toNat = some m := by
      cases hm : ms.get? i.toNat with
      | none =>
        have := List.get?_eq_none.mp hm
        omega
      | some m => exact ⟨m, rfl⟩
    obtain ⟨m, hm⟩ := hmsome
    have hpc := List.pairwise_cons.mp hpair
    have hrest_valid : ∀ i' ∈ rest, 0 ≤ i' ∧ i' < (ms.length : Int) :=
      fun i' hi' => hvalid i' (List.mem_cons_of_mem i hi')
    simp only [applySelection, if_neg hcond, hagree_i, hm, selSplice]
    have hagree' : ∀ (j : Nat) (i' : Int), i' ∈ rest → (j : Int) ≤ i' →
        (ms'.map (shiftAfter m.startPos ((new.length : Int) - (old.length : Int)))).get? j =
          ms.get? j := by
      intro j i' hi' hji
      have hi'lt : i' < i := hpc.1 i' hi'
      have hj_orig : ms'.get? j = ms.get? j :=
        hagree j i (List.mem_cons_self i rest) (by omega)
      have hjlen : j < ms.length := by
        obtain ⟨_, hi'2⟩ := hrest_valid i' hi'
        omega
      have hmj : ∃ mj, ms.get? j = some mj := by
        cases hmjj : ms.get? j with
        | none =>
          have := List.get?_eq_none.mp hmjj
          omega
        | some mj => exact ⟨mj, rfl⟩
      obtain ⟨mj, hmj⟩ := hmj
      have hjlei : j ≤ i.toNat := by omega
      have hle := hmono j i.toNat mj m hjlei hmj hm
      rw [List.get?_map, hj_orig, hmj, Option.map_some']
      unfold shiftAfter
      rw [if_neg (by omega)]
    have hlen' : (ms'.map (shiftAfter m.startPos
        ((new.length : Int) - (old.length : Int)))).length = ms.length := by
      rw [List.length_map]; exact hlen
    obtain ⟨ih1, ih2, ih3⟩ := ih _ (content.take m.startPos.toNat ++ new ++
        content.drop m.endPos.toNat) (cnt + 1) hrest_valid hpc.2 hagree' hlen'
    refine ⟨ih1, ?_, ih3⟩
    rw [ih2]
    simp only [List.length_cons]
    omega

/-- A pairwise-sorted match list is index-monotone in `get?` form. -/
theorem pairwise_le_get? {ms : List MatchInfo}
    (hpair : List.Pairwise (fun a b : MatchInfo => a.startPos ≤ b.startPos) ms)
    (j k : Nat) (mj mk : MatchInfo) (hjk : j ≤ k)
    (hj : ms.get? j = some mj) (hk : ms.get? k = some mk) :
    mj.startPos ≤ mk.startPos := by
  have hklt : k < ms.length := by
    by_contra hbig
    rw [List.get?_eq_none.mpr (by omega)] at hk
    exact Option.noConfusion hk
  have hjlt : j < ms.length := by omega
  rw [List.get?_eq_get hjlt] at hj
  rw [List.get?_eq_get hklt] at hk
  injection hj with hj
  injection hk with hk
  subst hj
  subst hk
  rcases Nat.lt_or_ge j k with hlt | hge
  · exact List.pairwise_iff_get.mp hpair ⟨j, hjlt⟩ ⟨k, hklt⟩ hlt
  · have hidx : j = k := by omega
    subst hidx
    exact le_refl _

/-- Exactness of a successful explicit-ordinal session resolution: when every
requested ordinal is in range and the ordinals are distinct, the resolution
writes exactly the content obtained by splicing the replacement into the
original file at the stored offsets of the selected matches (in descending
ordinal order), reports one replacement per ordinal, consumes the session,
and counts one write. -/
theorem handleSessionReplace_success_spec {st : State} {f sid : Str}
    {sd : SessionData} {cc : Str} {L : List Int}
    (hsd : alookup st.sessions sid = some sd) (hf : sd.filePath = f)
    (hfs : alookup st.fs f = some cc) (hne : L ≠ []) (hnodup : L.Nodup)
    (hvalid : ∀ i ∈ L, 0 ≤ i ∧ i < (sd.matchList.length : Int))
    (hpair : List.Pairwise (fun a b : MatchInfo => a.startPos ≤ b.startPos)
      sd.matchList) :
    handleSessionReplace st f sid (some L) false =
      (State.mk
        (aupdate st.fs f (selSplice sd.matchList sd.newString (sortDesc L) cc))
        st.dirs st.readFiles (aremove st.sessions sid) (st.writes + 1),
       .ok L.length) := by
  have hlen : L.length > 0 := by
    cases L with
    | nil => exact absurd rfl hne
    | cons _ _ => simp
  obtain ⟨h1, h2, h3⟩ := applySelection_eq_selSplice sd.oldString sd.newString
    sd.matchList (pairwise_le_get? hpair) (sortDesc L) sd.matchList cc 0
    (fun i hi => hvalid i (mem_sortDesc.mp hi))
    (sortDesc_pairwise_gt hnodup)
    (fun _ _ _ _ => rfl) rfl
  simp only [handleSessionReplace, hsd, hf, ne_eq, not_true_eq_false,
    Bool.false_eq_true, if_false, hfs, hlen, if_true, h3, h1, h2,
    sortDesc_length, Nat.zero_add, writeFileS]

/-! ## Claim theorems -/

/-- Claim C1, counterexample: the guard is a plain string-prefix test, so the
path `/wx` — which is NOT a descendant of the working directory `/w` — passes
`checkDirectoryBounds` and a write to it succeeds, creating a file outside
the working directory instead of failing with OutOfBounds. -/
theorem claim_C1_counterexample :
    specIsDescendant (str "/w") (str "/wx") = false ∧
    writeExecute (str "/w") st0 (str "/wx") (str "evil") false =
      .ok (State.mk [(str "/wx", str "evil")] [str "/"] [str "/wx"] [] 1) := by
  decide

/-- Claim C1 (amended): for every path whose resolved absolute form does not
have the working directory as a string prefix, every mutating operation
(write, edit, move, copy — on either endpoint) fails with OutOfBounds and,
the error being returned before any state is produced, no file is written,
moved or deleted. -/
theorem claim_C1 (cwd : Str) (st : State) (ignores : Str → Bool) (p q content : Str)
    (cpd ow : Bool) (edits : List EditOp)
    (hp : cwd.isPrefixOf p = false) (hne : edits ≠ []) :
    writeExecute cwd st p content cpd = .error .outOfBounds ∧
    editToolExecute cwd st p edits = .error .outOfBounds ∧
    moveExecute cwd ignores st p q ow = .error .outOfBounds ∧
    moveExecute cwd ignores st q p ow = .error .outOfBounds ∧
    copyExecute cwd ignores st p q ow = .error .outOfBounds ∧
    copyExecute cwd ignores st q p ow = .error .outOfBounds :=
  ⟨writeExecute_oob hp, editToolExecute_oob hne hp, moveExecute_oob (Or.inl hp),
   moveExecute_oob (Or.inr hp), copyExecute_oob (Or.inl hp), copyExecute_oob (Or.inr hp)⟩

/-- Claim C1, witness: the amended theorem applied at a concrete path outside
the working directory. -/
theorem claim_C1_witness :
    writeExecute (str "/w") st0 (str "/x") (str "c") false = .error .outOfBounds ∧
    editToolExecute (str "/w") st0 (str "/x") [mkReplace "a" "b"] = .error .outOfBounds ∧
    moveExecute (str "/w") (fun _ => false) st0 (str "/x") (str "/w/q") false =
      .error .outOfBounds ∧
    moveExecute (str "/w") (fun _ => false) st0 (str "/w/q") (str "/x") false =
      .error .outOfBounds ∧
    copyExecute (str "/w") (fun _ => false) st0 (str "/x") (str "/w/q") false =
      .error .outOfBounds ∧
    copyExecute (str "/w") (fun _ => false) st0 (str "/w/q") (str "/x") false =
      .error .outOfBounds :=
  claim_C1 (str "/w") st0 (fun _ => false) (str "/x") (str "/w/q") (str "c") false false
    [mkReplace "a" "b"] (by decide) (by decide)

/-- Claim C2, counterexample: a file with two matches of the search string.
The claim predicts a disambiguation session and no write; the edit tool
instead replaces the first occurrence, writes the file, and leaves the
session store empty — and even the uncalled single-replace path takes its
exact-substring tier, never creating a session. -/
theorem claim_C2_counterexample :
    (findMatches (str "x\nx") (str "x")).length = 2 ∧
    editToolExecute (str "/w") stTwo (str "/w/f") [mkReplace "x" "y"] =
      .ok (BatchResult.mk
        (State.mk [(str "/w/f", str "y\nx")] [str "/w"] [str "/w/f"] [] 1)
        1 [.replaced 1] (str "y\nx")) ∧
    (handleReplace stTwo (str "/w/f") (str "x") (str "y") none false none 0
      (str "s9")).1.sessions = [] ∧
    (handleReplace stTwo (str "/w/f") (str "x") (str "y") none false none 0
      (str "s9")).2 = .ok (.flexWrite .exactReplaced) := by
  decide

/-- Claim C2 (amended): the edit operation never creates a disambiguation
session.  When the search string occurs in the file at all, the
exact-substring (or full-line / whitespace-tolerant) tier fires first and
replaces directly, so the enumeration fallback only ever sees zero matches;
consequently `handleReplace` leaves the session store unchanged and every
successful non-session call is a flexible-tier write, and the batch path
used by `EditTool.execute` never touches the session store either.  When
exactly one match exists, the direct replace happens at that unique
location via the exact tier. -/
theorem claim_C2 :
    (∀ (st : State) (f o n : Str) (mi : Option (List Int)) (ra : Bool) (now : Int)
      (fid : Str),
      ((handleReplace st f o n mi ra none now fid).1.sessions = st.sessions) ∧
      (∀ out, (handleReplace st f o n mi ra none now fid).2 = .ok out →
        ∃ k, out = ReplaceOutcome.flexWrite k)) ∧
    (∀ (cwd : Str) (st : State) (p : Str) (edits : List EditOp) (r : BatchResult),
      editToolExecute cwd st p edits = .ok r → r.state.sessions = st.sessions) ∧
    (editToolExecute (str "/w") stOne (str "/w/f") [mkReplace "x" "y"] =
      .ok (BatchResult.mk
        (State.mk [(str "/w/f", str "a\ny\nb")] [str "/w"] [str "/w/f"] [] 1)
        1 [.replaced 2] (str "a\ny\nb"))) := by
  refine ⟨?_, ?_, by decide⟩
  · intro st f o n mi ra now fid
    exact handleReplace_no_sessions st f o n mi ra now fid
  · intro cwd st p edits r h
    exact editToolExecute_sessions h

/-- Claim C2, witness: the amended theorem applied at the two-match fixture,
with the success hypothesis discharged by evaluation. -/
theorem claim_C2_witness :
    ((handleReplace stTwo (str "/w/f") (str "x") (str "y") none false none 0
      (str "s9")).1.sessions = stTwo.sessions) ∧
    (∃ k, ReplaceOutcome.flexWrite FlexOutcome.exactReplaced =
      ReplaceOutcome.flexWrite k) :=
  ⟨(claim_C2.1 stTwo (str "/w/f") (str "x") (str "y") none false 0 (str "s9")).1,
   (claim_C2.1 stTwo (str "/w/f") (str "x") (str "y") none false 0 (str "s9")).2
     (.flexWrite .exactReplaced) (by decide)⟩

/-- Claim C3, counterexample: the spec's own whitespace-tolerant example.  In
a batch edit the differently indented block finds no match at all (the batch
loop has no whitespace-tolerant tier and performs no re-indentation), while
`tryFlexibleMatch` — reachable only from the uncalled single-replace path —
does match and re-indent the very same input. -/
theorem claim_C3_counterexample :
    editToolExecute (str "/w") stWs (str "/w/f")
      [EditOp.mk (some wsOld) (some wsNew) none none false] =
      .ok (BatchResult.mk stWs 0 [.noMatches] wsContent) ∧
    (tryFlexibleMatch wsContent wsOld wsNew).isSome = true := by
  decide

/-- Claim C3 (amended): a batch replace-shape operation applies only two
tiers against the current buffer — full-line deletion when some line equals
the (line-ending-normalized) search string and the replacement is empty,
else exact substring matching; there is no whitespace-tolerant tier in the
batch path.  Within the exact tier, the per-operation replaceAll flag
replaces every non-overlapping occurrence and reports their count (the
buffer decomposes as the pieces joined by the search string, the result is
the same pieces joined by the replacement, no piece contains the search
string, and the reported count is the number of occurrences so consumed);
without the flag only the first occurrence is replaced; with no occurrence
the buffer is left unchanged and the operation fails locally. -/
theorem claim_C3 (content old new : Str) :
    (∀ li ra, (splitNl content).findIdx? (fun l => l == normalizeLineEndings old) = some li →
      normalizeLineEndings new = [] →
      applyReplaceOp content old new ra =
        (joinNl ((splitNl content).eraseIdx li), 1, .deletedLine (li + 1))) ∧
    (¬ (((splitNl content).findIdx?
        (fun l => l == normalizeLineEndings old)).isSome ∧ normalizeLineEndings new = []) →
      containsStr content (normalizeLineEndings old) = true →
      normalizeLineEndings old ≠ [] →
      applyReplaceOp content old new true =
        (joinSep (normalizeLineEndings new) (splitOnStr content (normalizeLineEndings old)),
         (splitOnStr content (normalizeLineEndings old)).length - 1,
         .replacedAll ((splitOnStr content (normalizeLineEndings old)).length - 1)) ∧
      content = joinSep (normalizeLineEndings old)
        (splitOnStr content (normalizeLineEndings old)) ∧
      ∀ piece ∈ splitOnStr content (normalizeLineEndings old),
        containsStr piece (normalizeLineEndings old) = false) ∧
    (¬ (((splitNl content).findIdx?
        (fun l => l == normalizeLineEndings old)).isSome ∧ normalizeLineEndings new = []) →
      containsStr content (normalizeLineEndings old) = true →
      ∃ i, indexOfStr content (normalizeLineEndings old) = some i ∧
        (applyReplaceOp content old new false).1 =
          content.take i ++ normalizeLineEndings new ++
            content.drop (i + (normalizeLineEndings old).length) ∧
        (applyReplaceOp content old new false).2.1 = 1 ∧
        occursAt content (normalizeLineEndings old) i = true ∧
        ∀ r, r < i → occursAt content (normalizeLineEndings old) r = false) ∧
    (∀ ra, ¬ (((splitNl content).findIdx?
        (fun l => l == normalizeLineEndings old)).isSome ∧ normalizeLineEndings new = []) →
      containsStr content (normalizeLineEndings old) = false →
      applyReplaceOp content old new ra = (content, 0, .noMatches)) := by
  refine ⟨?_, ?_, ?_, ?_⟩
  · intro li ra hfind hnew
    exact applyReplaceOp_delete ra hfind hnew
  · intro hdel hc hold
    exact applyReplaceOp_replaceAll_spec hdel hc hold
  · intro hdel hc
    obtain ⟨i, hi, hrepl, hocc, hleast⟩ :=
      replaceFirst_spec (normalizeLineEndings new) hc
    refine ⟨i, hi, ?_, ?_, hocc, hleast⟩
    · rw [applyReplaceOp_exact_single hdel hc]
      exact hrepl
    · rw [applyReplaceOp_exact_single hdel hc]
  · intro ra hdel hnc
    exact applyReplaceOp_noMatches ra hdel hnc

/-- Claim C3, witness: the amended theorem applied at concrete inputs for
each tier (deletion, replace-all with count, single replace, no match). -/
theorem claim_C3_witness :
    (applyReplaceOp (str "a\nb\nc") (str "b") (str "") false =
      (joinNl ((splitNl (str "a\nb\nc")).eraseIdx 1), 1, .deletedLine 2)) ∧
    (applyReplaceOp (str "xaxa") (str "a") (str "b") true =
      (joinSep (normalizeLineEndings (str "b"))
        (splitOnStr (str "xaxa") (normalizeLineEndings (str "a"))),
       (splitOnStr (str "xaxa") (normalizeLineEndings (str "a"))).length - 1,
       .replacedAll ((splitOnStr (str "xaxa") (normalizeLineEndings (str "a"))).length - 1)) ∧
      str "xaxa" = joinSep (normalizeLineEndings (str "a"))
        (splitOnStr (str "xaxa") (normalizeLineEndings (str "a"))) ∧
      ∀ piece ∈ splitOnStr (str "xaxa") (normalizeLineEndings (str "a")),
        containsStr piece (normalizeLineEndings (str "a")) = false) ∧
    (applyReplaceOp (str "q") (str "zz") (str "w") false = (str "q", 0, .noMatches)) :=
  ⟨(claim_C3 (str "a\nb\nc") (str "b") (str "")).1 1 false (by decide) (by decide),
   (claim_C3 (str "xaxa") (str "a") (str "b")).2.1 (by decide) (by decide) (by decide),
   (claim_C3 (str "q") (str "zz") (str "w")).2.2.2 false (by decide) (by decide)⟩

/-- Claim C4: session resolution is all-or-nothing and consuming.  Any
out-of-range ordinal fails the entire resolution with the invalid-index
error and neither the disk nor the write counter changes; every successful
resolution (explicit ordinals or replace-all) deletes the session, so the
same token immediately resolves to the invalid-token error afterwards; a
successful explicit selection of distinct in-range ordinals over a
position-sorted match list writes exactly the splice of the replacement into
the original content at the stored offsets of the selected matches and
reports one replacement per ordinal; on the spec's three-occurrence
scenario, resolving ordinals 0 and 2 replaces exactly those two occurrences,
resolving replace-all replaces all three, and the consumed token then
fails. -/
theorem claim_C4 :
    (∀ (st : State) (f sid : Str) (sd : SessionData) (cc : Str) (mi : List Int),
      alookup st.sessions sid = some sd → sd.filePath = f → alookup st.fs f = some cc →
      mi ≠ [] → (∃ i ∈ mi, i < 0 ∨ (sd.matchList.length : Int) ≤ i) →
      (handleSessionReplace st f sid (some mi) false).2 = .error .invalidMatchIndex ∧
      (handleSessionReplace st f sid (some mi) false).1.fs = st.fs ∧
      (handleSessionReplace st f sid (some mi) false).1.writes = st.writes) ∧
    (∀ (st : State) (f sid : Str) (mi : Option (List Int)) (ra : Bool) (n : Nat),
      (handleSessionReplace st f sid mi ra).2 = .ok n →
      alookup (handleSessionReplace st f sid mi ra).1.sessions sid = none ∧
      ∀ mi' ra', handleSessionReplace (handleSessionReplace st f sid mi ra).1 f sid mi' ra' =
        ((handleSessionReplace st f sid mi ra).1, .error .invalidSession)) ∧
    (∀ (st : State) (f sid : Str) (sd : SessionData) (cc : Str) (L : List Int),
      alookup st.sessions sid = some sd → sd.filePath = f → alookup st.fs f = some cc →
      L ≠ [] → L.Nodup → (∀ i ∈ L, 0 ≤ i ∧ i < (sd.matchList.length : Int)) →
      List.Pairwise (fun a b : MatchInfo => a.startPos ≤ b.startPos) sd.matchList →
      handleSessionReplace st f sid (some L) false =
        (State.mk (aupdate st.fs f (selSplice sd.matchList sd.newString (sortDesc L) cc))
          st.dirs st.readFiles (aremove st.sessions sid) (st.writes + 1), .ok L.length)) ∧
    (handleSessionReplace stThree (str "/w/f") (str "s1") (some [0, 2]) false =
      (State.mk [(str "/w/f", str "y\nx\ny")] [str "/w"] [str "/w/f"] [] 1, .ok 2) ∧
     handleSessionReplace stThree (str "/w/f") (str "s1") none true =
      (State.mk [(str "/w/f", str "y\ny\ny")] [str "/w"] [str "/w/f"] [] 1, .ok 3) ∧
     handleSessionReplace
        (State.mk [(str "/w/f", str "y\nx\ny")] [str "/w"] [str "/w/f"] [] 1)
        (str "/w/f") (str "s1") (some [0]) false =
      (State.mk [(str "/w/f", str "y\nx\ny")] [str "/w"] [str "/w/f"] [] 1,
       .error .invalidSession)) := by
  refine ⟨?_, ?_, ?_, by decide⟩
  · intro st f sid sd cc mi hsd hf hfs hne hbad
    rw [handleSessionReplace_invalid_sel hsd hf hfs hbad hne]
    exact ⟨rfl, rfl, rfl⟩
  · intro st f sid mi ra n h
    have hcons := handleSessionReplace_consumed h
    have hnone : alookup (handleSessionReplace st f sid mi ra).1.sessions sid = none := by
      rw [hcons]; exact alookup_aremove_self _ _
    exact ⟨hnone, fun mi' ra' => handleSessionReplace_unknown hnone⟩
  · intro st f sid sd cc L hsd hf hfs hne hnodup hvalid hpair
    exact handleSessionReplace_success_spec hsd hf hfs hne hnodup hvalid hpair

/-- Claim C4, witness: the invalid-ordinal, consumption, and splice-exactness
parts applied to the three-occurrence fixture (ordinal 5 is out of range
0..2; the successful resolution with ordinals 0 and 2 consumes the token and
writes exactly the two-offset splice). -/
theorem claim_C4_witness :
    ((handleSessionReplace stThree (str "/w/f") (str "s1") (some [0, 5]) false).2 =
      .error .invalidMatchIndex ∧
     (handleSessionReplace stThree (str "/w/f") (str "s1") (some [0, 5]) false).1.fs =
      stThree.fs ∧
     (handleSessionReplace stThree (str "/w/f") (str "s1") (some [0, 5]) false).1.writes =
      stThree.writes) ∧
    (alookup (handleSessionReplace stThree (str "/w/f") (str "s1")
        (some [0, 2]) false).1.sessions (str "s1") = none) ∧
    (handleSessionReplace stThree (str "/w/f") (str "s1") (some [0, 2]) false =
      (State.mk (aupdate stThree.fs (str "/w/f")
          (selSplice msThree (str "y") (sortDesc [0, 2]) (str "x\nx\nx")))
        stThree.dirs stThree.readFiles (aremove stThree.sessions (str "s1"))
        (stThree.writes + 1), .ok 2)) :=
  ⟨claim_C4.1 stThree (str "/w/f") (str "s1") sdThree (str "x\nx\nx") [0, 5]
      (by decide) (by decide) (by decide) (by decide)
      ⟨5, by decide, by decide⟩,
   (claim_C4.2.1 stThree (str "/w/f") (str "s1") (some [0, 2]) false 2 (by decide)).1,
   claim_C4.2.2.1 stThree (str "/w/f") (str "s1") sdThree (str "x\nx\nx") [0, 2]
      (by decide) (by decide) (by decide) (by decide) (by decide) (by decide) (by decide)⟩

/-- Claim C5, counterexample: a session created at time 0 and accessed at
time 400000 (far past the 5-minute timeout) is NOT treated as not-found —
the resolution succeeds exactly as for a fresh session, because
`handleSessionReplace` never consults the timestamp and
`cleanExpiredSessions` is never invoked. -/
theorem claim_C5_counterexample :
    (400000 : Int) - sdThree.timestamp > SESSION_TIMEOUT ∧
    (handleSessionReplace stThree (str "/w/f") (str "s1") none true).2 = .ok 3 ∧
    (handleSessionReplace stThree (str "/w/f") (str "s1") none true).2 ≠
      .error .invalidSession := by
  decide

/-- Claim C5 (amended): access-time expiry does not exist.  Resolution is
completely independent of the stored creation timestamp — rewriting a
session's timestamp changes neither the result nor (on success) the final
state — so a session older than the timeout behaves exactly like a fresh
one.  The `cleanExpiredSessions` helper would remove exactly the sessions
strictly older than the 5-minute timeout, but no modelled operation invokes
it. -/
theorem claim_C5 :
    (∀ (st : State) (sid : Str) (sd : SessionData) (t : Int) (f : Str)
      (mi : Option (List Int)) (ra : Bool),
      alookup st.sessions sid = some sd →
      ((handleSessionReplace
          { st with sessions := aupdate st.sessions sid { sd with timestamp := t } }
          f sid mi ra).2 = (handleSessionReplace st f sid mi ra).2) ∧
      (∀ n, (handleSessionReplace st f sid mi ra).2 = .ok n →
        (handleSessionReplace
            { st with sessions := aupdate st.sessions sid { sd with timestamp := t } }
            f sid mi ra).1 = (handleSessionReplace st f sid mi ra).1)) ∧
    (∀ (now : Int) (sessions : List (Str × SessionData)) (pr : Str × SessionData),
      pr ∈ cleanExpiredSessions now sessions ↔
        pr ∈ sessions ∧ ¬ (now - pr.2.timestamp > SESSION_TIMEOUT)) := by
  constructor
  · intro st sid sd t f mi ra hsd
    exact handleSessionReplace_timestamp_irrelevant t f mi ra hsd
  · intro now sessions pr
    unfold cleanExpiredSessions
    rw [List.mem_filter]
    simp

/-- Claim C5, witness: the amended theorem applied at the three-occurrence
fixture, retiming the session from 0 to 400000 (past expiry). -/
theorem claim_C5_witness :
    ((handleSessionReplace
        { stThree with sessions := aupdate stThree.sessions (str "s1") { sdThree with timestamp := 400000 } }
        (str "/w/f") (str "s1") none true).2 =
      (handleSessionReplace stThree (str "/w/f") (str "s1") none true).2) ∧
    ((str "s1", sdThree) ∈ cleanExpiredSessions 400000 stThree.sessions ↔
      (str "s1", sdThree) ∈ stThree.sessions ∧
        ¬ ((400000 : Int) - sdThree.timestamp > SESSION_TIMEOUT)) :=
  ⟨(claim_C5.1 stThree (str "s1") sdThree 400000 (str "/w/f") none true (by decide)).1,
   claim_C5.2 400000 stThree.sessions (str "s1", sdThree)⟩

/-- Claim C6: the read-before-write gate.  Writing to an existing, in-bounds,
non-denylisted file whose resolved path is not in the read tracker fails
with RequiresPriorRead (the error is returned before any write, so the file
is unchanged); after any successful read of the file the same write
succeeds; and a successful write marks the path read, so a subsequent batch
edit of the same file succeeds without a separate read. -/
theorem claim_C6 :
    (∀ (cwd : Str) (st : State) (p content : Str) (cpd : Bool),
      cwd.isPrefixOf p = true → isDangerousFile p = false →
      (alookup st.fs p).isSome = true → p ∉ st.readFiles →
      writeExecute cwd st p content cpd = .error .requiresPriorRead) ∧
    (∀ (cwd : Str) (st : State) (p : Str) (sl el ml : Option Int) (st1 : State)
      (out content : Str) (cpd : Bool),
      readExecute cwd st p sl el ml = .ok (st1, out) →
      content.length ≤ MAX_FILE_SIZE → dirnameStr p ∈ st.dirs →
      writeExecute cwd st1 p content cpd =
        .ok (markFileAsRead (writeFileS st1 p content) p)) ∧
    (∀ (cwd : Str) (st : State) (p content : Str) (cpd : Bool) (st2 : State)
      (edits : List EditOp),
      writeExecute cwd st p content cpd = .ok st2 →
      cwd.isPrefixOf p = true → isDangerousFile p = false → edits ≠ [] →
      ∃ r, editToolExecute cwd st2 p edits = .ok r) := by
  refine ⟨?_, ?_, ?_⟩
  · intro cwd st p content cpd hpre hdang hex hread
    exact writeExecute_requires_read hpre hdang hex hread
  · intro cwd st p sl el ml st1 out content cpd hread hsize hdir
    obtain ⟨hst1, hpre, hdang, _⟩ := readExecute_ok hread
    subst hst1
    refine writeExecute_success hpre hdang ?_ hsize ?_
    · intro _
      simp [isFileRead, mem_markFileAsRead]
    · rw [markFileAsRead_dirs]
      exact hdir
  · intro cwd st p content cpd st2 edits hw hpre hdang hne
    obtain ⟨hread, hlook⟩ := writeExecute_ok_inv hw
    exact editToolExecute_ok_exists hne hpre hdang hread hlook

/-- Claim C6, witness: on the unread two-line fixture the write fails with
RequiresPriorRead; after a read the same write succeeds; and after that
write a batch edit succeeds without a separate read. -/
theorem claim_C6_witness :
    (writeExecute (str "/w") stUnread (str "/w/f") (str "new") false =
      .error .requiresPriorRead) ∧
    (writeExecute (str "/w") (markFileAsRead stUnread (str "/w/f")) (str "/w/f")
        (str "new") false =
      .ok (markFileAsRead
        (writeFileS (markFileAsRead stUnread (str "/w/f")) (str "/w/f") (str "new"))
        (str "/w/f"))) ∧
    (∃ r, editToolExecute (str "/w")
        (markFileAsRead
          (writeFileS (markFileAsRead stUnread (str "/w/f")) (str "/w/f") (str "new"))
          (str "/w/f"))
        (str "/w/f") [mkReplace "new" "newer"] = .ok r) :=
  ⟨claim_C6.1 (str "/w") stUnread (str "/w/f") (str "new") false
      (by decide) (by decide) (by decide) (by decide),
   claim_C6.2.1 (str "/w") stUnread (str "/w/f") none none none
      (markFileAsRead stUnread (str "/w/f")) (str "l1\nl2") (str "new") false
      (by decide) (by decide) (by decide),
   claim_C6.2.2 (str "/w") (markFileAsRead stUnread (str "/w/f")) (str "/w/f")
      (str "new") false _ [mkReplace "new" "newer"]
      (claim_C6.2.1 (str "/w") stUnread (str "/w/f") none none none
        (markFileAsRead stUnread (str "/w/f")) (str "l1\nl2") (str "new") false
        (by decide) (by decide) (by decide))
      (by decide) (by decide) (by decide)⟩

/-- Claim C7, counterexample: `findMatches` does not return one record per
non-overlapping occurrence with the matched text — on one line `aaa` the
search string `aa` yields two records (the scan restarts one character past
each match start, counting self-overlapping occurrences), although the
non-overlapping scan of the claim finds one; and each record's matchedText
is the entire containing line (`xy`), not the matched substring (`x`). -/
theorem claim_C7_counterexample :
    (findMatches (str "aaa") (str "aa")).length = 2 ∧
    specNonOverlapCount (str "aaa") (str "aa") = 1 ∧
    (findMatches (str "xy") (str "x")).map (fun m => m.matchedText) = [str "xy"] := by
  decide

/-- Claim C7 (amended): for every content and search string, `findMatches`
returns, scanning lines top to bottom, exactly one record per occurrence
START position of the search string within each line (so self-overlapping
occurrences each count once per start); each record's lineNumber is the
1-based index of its containing line and its matchedText is the entire
containing line. -/
theorem claim_C7 (c s : Str) :
    (findMatches c s).map (fun m => (m.lineNumber, m.matchedText)) =
      ((splitNl c).enum).flatMap
        (fun pr => List.replicate (lineOccStarts pr.2 s).length (pr.1 + 1, pr.2)) :=
  findMatches_map c s

/-- Claim C8, counterexample: a batch whose single operation replaces `a` by
`a` changes no byte of the buffer (the final content equals the original
file byte for byte), yet the code counts it as a change and performs one
write — contradicting "zero operations produce any change performs no write
at all". -/
theorem claim_C8_counterexample :
    editToolExecute (str "/w") stA (str "/w/f") [mkReplace "a" "a"] =
      .ok (BatchResult.mk
        (State.mk [(str "/w/f", str "a")] [str "/w"] [str "/w/f"] [] 1)
        1 [.replaced 1] (str "a")) ∧
    (str "a" : Str) = str "a" := by
  decide

/-- Claim C8 (amended): a batch in which zero operations APPLY (every
operation is invalid or fails to match) performs no write at all and leaves
the entire state — disk and write counter — unchanged; a batch in which at
least one operation applies performs exactly one write of the final
accumulated buffer, even when that buffer is byte-identical to the original
(e.g. oldString equals newString). -/
theorem claim_C8 (cwd : Str) (st : State) (p : Str) (edits : List EditOp)
    (r : BatchResult) (h : editToolExecute cwd st p edits = .ok r) :
    (r.totalChanges = 0 → r.state = st ∧ ∀ o ∈ r.outcomes, isFailureOutcome o = true) ∧
    ((∀ o ∈ r.outcomes, isFailureOutcome o = true) → r.totalChanges = 0) ∧
    (r.totalChanges > 0 →
      r.state.fs = aupdate st.fs p r.finalContent ∧ r.state.writes = st.writes + 1) := by
  unfold editToolExecute at h
  by_cases hie : edits.isEmpty = true
  · rw [if_pos hie] at h; exact Except.noConfusion h
  · rw [if_neg hie] at h
    exact handleBatchEdit_frame h

/-- Claim C8, witness: a batch whose only operation finds no match leaves
the state untouched with zero writes. -/
theorem claim_C8_witness :
    (BatchResult.mk stA 0 [OpOutcome.noMatches] (str "a")).state = stA ∧
    ∀ o ∈ (BatchResult.mk stA 0 [OpOutcome.noMatches] (str "a")).outcomes,
      isFailureOutcome o = true :=
  (claim_C8 (str "/w") stA (str "/w/f") [mkReplace "zz" "q"]
    (BatchResult.mk stA 0 [OpOutcome.noMatches] (str "a")) (by decide)).1 (by decide)

/-- Claim C9: full-line deletion.  Replacing old `b` by the empty string in
`a\nb\nc` deletes the whole line including its separator, yielding `a\nc`;
and in general, in both the batch path and the flexible-match path, when the
normalized search string equals some line's entire content and the
replacement is empty, the whole line is deleted — this tier runs before the
plain substring replace that would have left an empty line. -/
theorem claim_C9 :
    (editToolExecute (str "/w") stAbc (str "/w/f") [mkReplace "b" ""] =
      .ok (BatchResult.mk
        (State.mk [(str "/w/f", str "a\nc")] [str "/w"] [str "/w/f"] [] 1)
        1 [.deletedLine 2] (str "a\nc"))) ∧
    (∀ (content old new : Str) (li : Nat) (ra : Bool),
      (splitNl content).findIdx? (fun l => l == normalizeLineEndings old) = some li →
      normalizeLineEndings new = [] →
      applyReplaceOp content old new ra =
        (joinNl ((splitNl content).eraseIdx li), 1, .deletedLine (li + 1))) ∧
    (∀ (content old new : Str) (li : Nat),
      (splitNl content).findIdx? (fun l => l == old) = some li → new = [] →
      tryFlexibleMatch content old new =
        some (joinNl ((splitNl content).eraseIdx li), .deletedLine)) := by
  refine ⟨by decide, ?_, ?_⟩
  · intro content old new li ra hfind hnew
    exact applyReplaceOp_delete ra hfind hnew
  · intro content old new li hfind hnew
    exact tryFlexibleMatch_delete hfind hnew

/-- Claim C9, witness: the general deletion tiers applied at the concrete
three-line input. -/
theorem claim_C9_witness :
    (applyReplaceOp (str "a\nb\nc") (str "b") (str "") false =
      (joinNl ((splitNl (str "a\nb\nc")).eraseIdx 1), 1, .deletedLine 2)) ∧
    (tryFlexibleMatch (str "a\nb\nc") (str "b") (str "") =
      some (joinNl ((splitNl (str "a\nb\nc")).eraseIdx 1), .deletedLine)) :=
  ⟨claim_C9.2.1 (str "a\nb\nc") (str "b") (str "") 1 false (by decide) (by decide),
   claim_C9.2.2 (str "a\nb\nc") (str "b") (str "") 1 (by decide) (by decide)⟩

/-- Claim C10: any successful read — whatever line range was requested, even
a single line — marks the entire file's resolved path as read without
touching the disk, and from then on the read-before-write gate permits both
overwriting the whole file and batch-editing it, including content that the
read never returned. -/
theorem claim_C10 (cwd : Str) (st : State) (p : Str) (sl el ml : Option Int)
    (st1 : State) (out : Str) (h : readExecute cwd st p sl el ml = .ok (st1, out)) :
    p ∈ st1.readFiles ∧ st1.fs = st.fs ∧
    (∀ (content : Str) (cpd : Bool), content.length ≤ MAX_FILE_SIZE →
      dirnameStr p ∈ st.dirs →
      writeExecute cwd st1 p content cpd =
        .ok (markFileAsRead (writeFileS st1 p content) p)) ∧
    (∀ edits : List EditOp, edits ≠ [] → ∃ r, editToolExecute cwd st1 p edits = .ok r) := by
  obtain ⟨hst1, hpre, hdang, hex⟩ := readExecute_ok h
  subst hst1
  refine ⟨mem_markFileAsRead st p, markFileAsRead_fs st p, ?_, ?_⟩
  · intro content cpd hsize hdir
    refine writeExecute_success hpre hdang ?_ hsize ?_
    · intro _
      simp [isFileRead, mem_markFileAsRead]
    · rw [markFileAsRead_dirs]
      exact hdir
  · intro edits hne
    rw [Option.isSome_iff_exists] at hex
    obtain ⟨raw, hraw⟩ := hex
    exact @editToolExecute_ok_exists cwd (markFileAsRead st p) p edits raw hne hpre hdang
      (by simp [isFileRead, mem_markFileAsRead])
      (by rw [markFileAsRead_fs]; exact hraw)

/-- Claim C10, witness: reading only line 1 of the two-line fixture returns
just `l1` yet marks the whole file read; the gate then permits a full
overwrite and a batch edit touching content the read never returned. -/
theorem claim_C10_witness :
    (str "/w/f") ∈ (markFileAsRead stUnread (str "/w/f")).readFiles ∧
    (markFileAsRead stUnread (str "/w/f")).fs = stUnread.fs ∧
    writeExecute (str "/w") (markFileAsRead stUnread (str "/w/f")) (str "/w/f")
        (str "replaced everything") false =
      .ok (markFileAsRead
        (writeFileS (markFileAsRead stUnread (str "/w/f")) (str "/w/f")
          (str "replaced everything"))
        (str "/w/f")) ∧
    (∃ r, editToolExecute (str "/w") (markFileAsRead stUnread (str "/w/f"))
        (str "/w/f") [mkReplace "l2" "hidden"] = .ok r) := by
  have h := claim_C10 (str "/w") stUnread (str "/w/f") (some 1) none (some 1)
    (markFileAsRead stUnread (str "/w/f")) (str "l1") (by decide)
  exact ⟨h.1, h.2.1, h.2.2.1 (str "replaced everything") false (by decide) (by decide),
    h.2.2.2 [mkReplace "l2" "hidden"] (by decide)⟩
